import Mathlib

/-!
# Verification of the multithreaded grep core (src/grep.c)

Shallow embedding of the scanning and output engine of a multithreaded
variant of GNU grep (a single C file, `src/grep.c`).  Bytes are modelled
as `Nat`, byte buffers as `List Nat`, and pointers into a buffer as `Nat`
indices.  The machine-integer counters that can overflow (`uintmax_t` in
`add_count`) are modelled with an explicit `% 2^64`; all other counters
are sizes of in-memory buffers and are modelled as `Nat`/`Int` exactly as
the C code computes them.

The regex back-ends (`compile`/`execute`, in dfasearch.c/kwsearch.c/...)
are not part of `src/`; they are modelled from the spec's matcher
interface (§4.1), see `execLines` below.  The locale-dependent encoding
probe `buf_has_encoding_errors` (it consults `mbrlen` and the locale's
unibyte mask) is modelled as an abstract boolean parameter on the bytes
of the candidate output line.
-/

namespace MTGrep

/-- A byte of input. -/
abbrev Byte := Nat

/-- The slice `[p, q)` of a buffer, i.e. the bytes a C pointer pair
`(buf + p, buf + q)` delimits. -/
def slice (bs : List Byte) (p q : Nat) : List Byte :=
  (bs.take q).drop p

/-- Number of end-of-line bytes in a byte list. -/
def countEol (eol : Byte) (bs : List Byte) : Nat :=
  bs.countP (fun b => b = eol)

/-! ## add_count (src/grep.c lines 802-809)

`uintmax_t` is 64 bits wide; the C sum `a + b` wraps modulo `2^64` and
`add_count` diagnoses exactly the wrapped case (`sum < a`), exiting with
status `EXIT_TROUBLE`.  `none` models the fatal `ts_error` path. -/

/-- Width of `uintmax_t`. -/
def uintmaxMod : Nat := 2 ^ 64

/-- `EXIT_TROUBLE` (system.h, value 2): exit status for errors. -/
def EXIT_TROUBLE : Nat := 2

/-- `add_count` from src/grep.c: returns the mod-`2^64` sum, or `none`
(the fatal "input is too large to count" diagnostic, exit status 2)
when the sum wrapped. -/
def add_count (a b : Nat) : Option Nat :=
  let sum := (a + b) % uintmaxMod
  if sum < a then none else some sum

/-! ## zap_nuls (src/grep.c lines 1389-1404)

The C routine walks the buffer with `strlen`, overwriting each run of
NUL bytes with the eol byte; its net effect on the live range is to
replace every `0` byte with `eol`.  When `eol == 0` (the `-z` case) the
routine does nothing at all (`if (eol)`). -/

/-- One pass of `zap_nuls`: replace every NUL byte by `eol`. -/
def zapNulsGo (eol : Byte) : List Byte → List Byte
  | [] => []
  | b :: bs => (if b = 0 then eol else b) :: zapNulsGo eol bs

/-- `zap_nuls` from src/grep.c: no-op when the zapper byte is 0. -/
def zap_nuls (eol : Byte) (bs : List Byte) : List Byte :=
  if eol ≠ 0 then zapNulsGo eol bs else bs

/-! ## buf_has_nulls (src/grep.c lines 694-699)

The C code plants a 0 sentinel at `buf[size]` and compares `strlen` with
`size`; `strlen` is the length of the longest 0-free prefix. -/

/-- `buf_has_nulls` from src/grep.c via the `strlen` probe. -/
def buf_has_nulls (bs : List Byte) : Bool :=
  (bs.takeWhile (fun b => b ≠ 0)).length ≠ bs.length

/-! ## print_offset digit generation (src/grep.c lines 1038-1062)

`print_offset` emits the base-10 ASCII digits of `pos` by a do-while
`*--p = '0' + pos % 10; pos /= 10` loop (tab alignment off).  Fuel
`pos + 1` over-approximates the number of digits. -/

/-- The digit loop of `print_offset`, building digits most-significant
first; `acc` holds the digits already produced (least significant). -/
def offsetDigitsGo (fuel : Nat) (pos : Nat) (acc : List Byte) : List Byte :=
  match fuel with
  | 0 => acc
  | fuel + 1 =>
    let acc := (48 + pos % 10) :: acc
    if pos / 10 = 0 then acc else offsetDigitsGo fuel (pos / 10) acc

/-- ASCII decimal digits printed by `print_offset` for `pos`. -/
def offsetDigits (pos : Nat) : List Byte :=
  offsetDigitsGo (pos + 1) pos []

/-! ## Exit status aggregation

Worker loop (src/grep.c lines 1701-1713): `status` starts `true` and
each processed file updates it by `status = !count && status`, so a
worker's return value is "every file I processed had zero output
lines".  Main (lines 2942-2951) starts `status = 1`, folds
`status = status && !!worker_status` over the joined workers, and
returns `errseen ? EXIT_TROUBLE : status`. -/

/-- Per-worker return value: the fold of `status = !count && status`
over the per-file output-line counts, starting from `true`. -/
def workerStatusFold (counts : List Int) : Bool :=
  counts.foldl (fun s c => decide (c = 0) && s) true

/-- The spec's words for the worker return value ("all files produced
at least one match so far"), for comparison with `workerStatusFold`. -/
def specWorkerAllMatched (counts : List Int) : Bool :=
  counts.all (fun c => decide (c ≠ 0))

/-- Main's join loop: `status = 1; status = status && !!worker_status`. -/
def joinStatus (ws : List Bool) : Bool :=
  ws.foldl (fun s w => s && w) true

/-- Main's return value `errseen ? EXIT_TROUBLE : status`
(src/grep.c line 2951); `status` is the C `int` 0/1 of the join. -/
def finalExit (errseen : Bool) (ws : List Bool) : Nat :=
  if errseen then EXIT_TROUBLE else (if joinStatus ws then 1 else 0)

/-- The `exit (errseen ? exit_failure : EXIT_SUCCESS)` expression of
`grepbuf` (src/grep.c line 1440), reached on the first match under
`exit_on_match`; `-q` sets `exit_failure = 0` (line 2650). -/
def grepbufExitOnMatch (errseen : Bool) (exitFailure : Nat) : Nat :=
  if errseen then exitFailure else 0

/-! ## The matcher interface

`compile`/`execute` live in the regex back-ends (dfasearch.c etc.),
which are not under `src/`. -/

/-- Split a buffer into its complete lines, each including its trailing
eol byte; an incomplete trailing line (residue) yields no line.  `acc`
holds the bytes of the line being assembled. -/
def toLinesAux (eol : Byte) (acc : List Byte) : List Byte → List (List Byte)
  | [] => []
  | b :: bs =>
    if b = eol then (acc ++ [eol]) :: toLinesAux eol [] bs
    else toLinesAux eol (acc ++ [b]) bs

/-- The complete lines of a buffer (each with its eol terminator). -/
def toLines (eol : Byte) (bs : List Byte) : List (List Byte) :=
  toLinesAux eol [] bs

/-- The content of a line without its eol terminator. -/
def lineContent (l : List Byte) : List Byte :=
  l.dropLast

/-- Search the line list for the first line whose content satisfies the
pattern predicate `f`, returning its byte offset and its length
including the terminator. -/
def execLinesGo (f : List Byte → Bool) : List (List Byte) → Option (Nat × Nat)
  | [] => none
  | l :: ls =>
    if f (lineContent l) then some (0, l.length)
    else
      match execLinesGo f ls with
      | none => none
      | some (mo, ms) => some (mo + l.length, ms)

/-- Modelled from the spec: `execute (handle, buffer, size, start=NULL)`
of the matcher interface (§4.1), whose whole-line mode "returns either
no match or (offset, match_length) where offset is the byte index of the
first matching line and match_length is the length of the line
including the terminator".  The back-ends themselves (dfasearch.c,
kwsearch.c, pcresearch.c) are not under src/.  The pattern is modelled
by the predicate `f` on a line's content. -/
def execLines (f : List Byte → Bool) (eol : Byte) (bs : List Byte) :
    Option (Nat × Nat) :=
  execLinesGo f (toLines eol bs)

/-- `execute` applied to the buffer range `[p, lim)` with a NULL start
hint, as `grepbuf` and `prpending` call it. -/
def executeM (f : List Byte → Bool) (eol : Byte) (buf : List Byte)
    (p lim : Nat) : Option (Nat × Nat) :=
  execLines f eol (slice buf p lim)

/-! ## Option state and per-worker scan context -/

/-- The `--binary-files` mode (`TEXT_BINARY_FILES`, `BINARY_BINARY_FILES`,
`WITHOUT_MATCH_BINARY_FILES`). -/
inductive BinaryFiles where
  | binary
  | text
  | withoutMatch
deriving DecidableEq, Repr

/-- The option globals of src/grep.c consumed by the scan engine.
`out_before`/`out_after` keep the C initial value `-1` when no context
option was given (src/grep.c lines 2428-2430, 2824-2827).
`group_separator` is non-NULL unless `--no-group-separator`.
Not modelled: `only_matching`, color, `align_tabs`, DOS mode and `-Z`
(none is exercised by the claims). -/
structure Opts where
  eolbyte : Byte
  out_invert : Bool
  out_line : Bool
  out_byte : Bool
  out_file : Bool
  out_before : Int
  out_after : Int
  out_quiet : Bool
  done_on_match : Bool
  max_count : Int
  binary_files : BinaryFiles
  count_matches : Bool
  group_separator : Bool
deriving Repr

/-- The mutable per-worker scan context `struct grepctx`
(src/grep.c lines 84-131).  Pointers into the buffer become indices;
`lastout = none` models the NULL pointer.  `pending` is kept as a `Nat`
(the C code only ever assigns `MAX (0, out_after)` and decrements while
positive).  The buffer-refill fields (`buffer`, `bufalloc`, `bufdesc`,
`bufoffset`, `skip_nuls`, `seek_data_failed`) belong to the abstracted
I/O layer, and `after_last_match` (stdin seek restore) is unused by the
claims. -/
structure Ctx where
  filename : String
  totalcc : Nat
  totalnl : Nat
  lastnl : Nat
  lastout : Option Nat
  outleft : Int
  pending : Nat
  out_quiet : Bool
  done_on_match : Bool
  encoding_error_output : Bool
deriving DecidableEq, Repr

/-- One printed head+line record: the optional filename, line-number and
byte-offset fields (in print order), the separator kind
(`true` = `SEP_CHAR_SELECTED` i.e. `:`, `false` = `SEP_CHAR_REJECTED`
i.e. `-`) and the raw bytes `[beg, lim)` of the line. -/
structure OutLine where
  fname : Option String
  lineno : Option Nat
  byteoff : Option Nat
  sel : Bool
  content : List Byte
deriving DecidableEq, Repr

/-- One serialized unit of stdout output. -/
inductive OutEvent where
  | line (l : OutLine)
  | groupSep
  | binarySummary (name : String)
deriving DecidableEq, Repr

/-- Scan context plus the process-global output state: the static
`used` flag of `prtext` and the bytes emitted so far. -/
structure St where
  ctx : Ctx
  used : Bool
  out : List OutEvent
deriving DecidableEq, Repr

/-! ## The output formatter (src/grep.c lines 1003-1306) -/

/-- `nlscan` (lines 1003-1017): tally the eol bytes of `[lastnl, lim)`
into `totalnl` and advance `lastnl` to `lim`. -/
def nlscan (eol : Byte) (buf : List Byte) (ctx : Ctx) (limIdx : Nat) : Ctx :=
  { ctx with
    totalnl := ctx.totalnl + countEol eol (slice buf ctx.lastnl limIdx)
    lastnl := limIdx }

/-- `print_line_head` (lines 1072-1137).  The output line starts at
`begIdx` and has `len` bytes; the full line runs to `limIdx`.  Returns
the context plus `none` when the line was suppressed for an encoding
error, otherwise the (filename, line-number, byte-offset) head fields.
`encErr` models the locale probe `buf_has_encoding_errors`. -/
def print_line_head (o : Opts) (encErr : List Byte → Bool) (buf : List Byte)
    (ctx : Ctx) (begIdx len limIdx : Nat) :
    Ctx × Option (Option String × Option Nat × Option Nat) :=
  let encodingErrors :=
    if o.binary_files ≠ BinaryFiles.text then encErr (slice buf begIdx (begIdx + len))
    else false
  if encodingErrors then
    ({ ctx with encoding_error_output := true, done_on_match := true, out_quiet := true },
     none)
  else
    let fname := if o.out_file then some ctx.filename else none
    let ctx :=
      if o.out_line ∧ ctx.lastnl < limIdx then
        let c := nlscan o.eolbyte buf ctx begIdx
        { c with totalnl := c.totalnl + 1, lastnl := limIdx }
      else ctx
    let lineno := if o.out_line then some ctx.totalnl else none
    let byteoff := if o.out_byte then some (ctx.totalcc + begIdx) else none
    (ctx, some (fname, lineno, byteoff))

/-- `prline` (lines 1228-1281) for the claim-relevant configurations
(`only_matching` and color off): print the head, then the bytes
`[beg, lim)`, and record `lastout = lim`; on head suppression nothing
is printed and `lastout` is untouched. -/
def prline (o : Opts) (encErr : List Byte → Bool) (buf : List Byte)
    (st : St) (begIdx limIdx : Nat) (sel : Bool) : St :=
  match print_line_head o encErr buf st.ctx begIdx (limIdx - begIdx - 1) limIdx with
  | (ctx, none) => { st with ctx := ctx }
  | (ctx, some head) =>
    { st with
      ctx := { ctx with lastout := some limIdx }
      out := st.out ++ [OutEvent.line
        { fname := head.1, lineno := head.2.1, byteoff := head.2.2,
          sel := sel, content := slice buf begIdx limIdx }] }

/-- Index of the first eol byte at or after `p` (before `lim`), i.e.
`memchr (p, eolbyte, lim - p)`; `lim` when there is none. -/
def findEolFrom (eol : Byte) (buf : List Byte) (p limIdx : Nat) : Nat :=
  p + ((slice buf p limIdx).takeWhile (fun b => b ≠ eol)).length

/-- The `while (pending > 0 && lastout < lim)` loop of `prpending`
(lines 1291-1304); `pending` strictly decreases, so it doubles as
fuel. -/
def prpendingLoop (o : Opts) (encErr : List Byte → Bool) (f : List Byte → Bool)
    (buf : List Byte) (limIdx : Nat) : Nat → St → St
  | 0, st => st
  | fuel + 1, st =>
    if st.ctx.pending > 0 ∧ st.ctx.lastout.getD 0 < limIdx then
      let lastout := st.ctx.lastout.getD 0
      let nl := findEolFrom o.eolbyte buf lastout limIdx
      let st := { st with ctx := { st.ctx with pending := st.ctx.pending - 1 } }
      if st.ctx.outleft ≠ 0 ∨
          ((executeM f o.eolbyte buf lastout (nl + 1) = none) = ¬ o.out_invert) then
        prpendingLoop o encErr f buf limIdx fuel
          (prline o encErr buf st lastout (nl + 1) false)
      else
        { st with ctx := { st.ctx with pending := 0 } }
    else st

/-- `prpending` (lines 1285-1306): print up to `pending` trailing
context lines from `lastout` up to `lim`. -/
def prpending (o : Opts) (encErr : List Byte → Bool) (f : List Byte → Bool)
    (buf : List Byte) (st : St) (limIdx : Nat) : St :=
  let st :=
    if st.ctx.lastout = none then
      { st with ctx := { st.ctx with lastout := some 0 } }
    else st
  prpendingLoop o encErr f buf limIdx st.ctx.pending st

/-- One backward line step of the leading-context walk
(`do --p; while (p[-1] != eol);`), relying on the `bufbeg[-1] == eol`
sentinel at index 0. -/
def backOneLine (eol : Byte) (buf : List Byte) (p : Nat) : Nat :=
  p - 1 - ((slice buf 0 (p - 1)).reverse.takeWhile (fun b => b ≠ eol)).length

/-- The leading-context loop of `prtext` (lines 1328-1333): up to
`out_before` backward line steps, each guarded by `p > bp`. -/
def backLines (eol : Byte) (buf : List Byte) (bp : Nat) : Nat → Nat → Nat
  | 0, p => p
  | i + 1, p =>
    if p > bp then backLines eol buf bp i (backOneLine eol buf p)
    else backLines eol buf bp i p

/-- The `while (p < beg)` leading-context emission loop of `prtext`
(lines 1346-1352); fuel `begIdx - p` suffices since each line is at
least one byte. -/
def prtextRejLoop (o : Opts) (encErr : List Byte → Bool) (buf : List Byte)
    (begIdx : Nat) : Nat → Nat → St → St
  | 0, _, st => st
  | fuel + 1, p, st =>
    if p < begIdx then
      let nl := findEolFrom o.eolbyte buf p begIdx + 1
      prtextRejLoop o encErr buf begIdx fuel nl
        (prline o encErr buf st p nl false)
    else st

/-- The inverted-output loop of `prtext`
(`for (n = 0; p < lim && n < outleft; n++)`, lines 1359-1366).
Returns the state and the final `n`. -/
def prtextInvLoop (o : Opts) (encErr : List Byte → Bool) (buf : List Byte)
    (limIdx : Nat) : Nat → Nat → Int → St → St × Int
  | 0, _, n, st => (st, n)
  | fuel + 1, p, n, st =>
    if p < limIdx ∧ n < st.ctx.outleft then
      let nl := findEolFrom o.eolbyte buf p limIdx + 1
      let st := if ¬ st.ctx.out_quiet then prline o encErr buf st p nl true else st
      prtextInvLoop o encErr buf limIdx fuel nl (n + 1) st
    else (st, n)

/-- The pending-context flush at the top of `prtext` (lines
1317-1318). -/
def prtextPending (o : Opts) (encErr : List Byte → Bool) (f : List Byte → Bool)
    (buf : List Byte) (st : St) (begIdx : Nat) : St :=
  if ¬ st.ctx.out_quiet ∧ st.ctx.pending > 0 then prpending o encErr f buf st begIdx
  else st

/-- The leading-context and group-separator block of `prtext` (lines
1324-1353), guarded by `out_quiet`. -/
def prtextLeading (o : Opts) (encErr : List Byte → Bool) (buf : List Byte)
    (st : St) (begIdx : Nat) : St :=
  if ¬ st.ctx.out_quiet then
    let bp := st.ctx.lastout.getD 0
    let p := backLines o.eolbyte buf bp o.out_before.toNat begIdx
    let st :=
      if (0 ≤ o.out_before ∨ 0 ≤ o.out_after) ∧ st.used ∧
          some p ≠ st.ctx.lastout ∧ o.group_separator then
        { st with out := st.out ++ [OutEvent.groupSep] }
      else st
    prtextRejLoop o encErr buf begIdx (begIdx - p) p st
  else st

/-- The selected-region emission of `prtext` (lines 1355-1375):
line-by-line under `-v`, one `prline` otherwise.  Returns the state and
`n`, the number of budget units consumed. -/
def prtextBody (o : Opts) (encErr : List Byte → Bool) (buf : List Byte)
    (st : St) (begIdx limIdx : Nat) : St × Int :=
  if o.out_invert then
    prtextInvLoop o encErr buf limIdx (limIdx - begIdx) begIdx 0 st
  else
    ((if ¬ st.ctx.out_quiet then prline o encErr buf st begIdx limIdx true else st), 1)

/-- `prtext` (lines 1309-1383): flush pending trailing context, print
leading context (with the group separator when due), then the selected
region `[beg, lim)`, and update `pending`, `used` and `outleft`.
`after_last_match` (stdin seek restore) is not modelled. -/
def prtext (o : Opts) (encErr : List Byte → Bool) (f : List Byte → Bool)
    (buf : List Byte) (st : St) (begIdx limIdx : Nat) : St :=
  let st1 := prtextPending o encErr f buf st begIdx
  let st2 := prtextLeading o encErr buf st1 begIdx
  let r := prtextBody o encErr buf st2 begIdx limIdx
  { r.1 with
    used := true
    ctx := { r.1.ctx with
      pending := if r.1.ctx.out_quiet then 0 else o.out_after.toNat
      outleft := r.1.ctx.outleft - r.2 } }

/-! ## grepbuf (src/grep.c lines 1409-1447)

The inner match loop `for (p = beg; p < lim; p = endp)`.  A "no match"
in inverted mode is turned into the synthetic `(lim - p, 0)` pair just
as the C code does.  `exit_on_match` (which calls `exit` here; see
`grepbufExitOnMatch`) is not part of the state machine.  Fuel
`lim - p + 1` suffices: under the whole-line matcher every step
advances by at least one byte. -/
def grepbufLoop (o : Opts) (encErr : List Byte → Bool) (f : List Byte → Bool)
    (buf : List Byte) (limIdx : Nat) : Nat → Nat → St → St
  | 0, _, st => st
  | fuel + 1, p, st =>
    if p < limIdx then
      let res :=
        match executeM f o.eolbyte buf p limIdx with
        | none => if o.out_invert then some (limIdx - p, 0) else none
        | some x => some x
      match res with
      | none => st
      | some (mo, ms) =>
        let b := p + mo
        let endp := b + ms
        if ¬ o.out_invert ∧ b = limIdx then st
        else if ¬ o.out_invert ∨ p < b then
          let st := prtext o encErr f buf st
            (if o.out_invert then p else b) (if o.out_invert then b else endp)
          if st.ctx.outleft = 0 ∨ st.ctx.done_on_match then st
          else grepbufLoop o encErr f buf limIdx fuel endp st
        else grepbufLoop o encErr f buf limIdx fuel endp st
    else st

/-- `grepbuf`: scan `[beg, lim)`, returning the new state and the count
of lines printed (`outleft0 - outleft`). -/
def grepbuf (o : Opts) (encErr : List Byte → Bool) (f : List Byte → Bool)
    (buf : List Byte) (st : St) (begIdx limIdx : Nat) : St × Int :=
  let st2 := grepbufLoop o encErr f buf limIdx (limIdx - begIdx + 1) begIdx st
  (st2, st.ctx.outleft - st2.ctx.outleft)

/-! ## The per-file scan loop `grep` (src/grep.c lines 1450-1598)

The buffer-refill layer (`reset`/`fillbuf`, hole skipping, residues and
the leading-context `save` carry) is abstracted: the input arrives as
the list of eol-aligned chunks the streaming buffer delivers (§4.2 of
the spec: every chunk ends at an end-of-line or at end of file), so
`save = residue = 0` at every refill and a final empty chunk marks end
of file.  `file_must_have_nulls` (an `lseek` probe) is not modelled.
The result quadruple is (state, `nlines`, `nlines_first_null`,
early-return-for-`--binary-files=without-match`). -/

/-- The NUL probe at the top of each scan iteration (lines 1493-1497):
fires while no nulls were deduced yet (`nlines_first_null < 0`), the
eol byte is nonzero, `binary_files != text`, and the buffer holds a
NUL. -/
def nulProbe (o : Opts) (nfn : Int) (c : List Byte) : Bool :=
  decide (nfn < 0) && decide (o.eolbyte ≠ 0) &&
    decide (o.binary_files ≠ BinaryFiles.text) && buf_has_nulls c

/-- The live range handed to `grepbuf` for a chunk: `zap_nuls` with the
`nul_zapper` byte, which is the eol byte once nulls were deduced
(`0 ≤ nlines_first_null`) and `0` (a no-op) before that. -/
def scannedBuffer (o : Opts) (nfn : Int) (c : List Byte) : List Byte :=
  zap_nuls (if 0 ≤ nfn then o.eolbyte else 0) c

/-- The flag flip of the NUL probe (lines 1499-1502): when the probe
fired and `-c` is not in effect, `done_on_match` and `out_quiet` are
raised. -/
def chunkFlags (o : Opts) (probe : Bool) (st : St) : St :=
  if probe && ! o.count_matches then
    { st with ctx := { st.ctx with done_on_match := true, out_quiet := true } }
  else st

/-- The per-iteration pointer resets (lines 1508-1510):
`lastnl = bufbeg` and, when set, `lastout = bufbeg`. -/
def chunkReset (st : St) : St :=
  { st with ctx := { st.ctx with
    lastnl := 0
    lastout := st.ctx.lastout.map (fun _ => 0) } }

/-- Line 1536: scan the chunk with `grepbuf` when budget remains. -/
def chunkScan (o : Opts) (encErr : List Byte → Bool) (f : List Byte → Bool)
    (buf : List Byte) (st : St) : St × Int :=
  if st.ctx.outleft ≠ 0 then grepbuf o encErr f buf st 0 buf.length
  else (st, 0)

/-- Lines 1538-1539: flush trailing context at the chunk's limit. -/
def chunkPend (o : Opts) (encErr : List Byte → Bool) (f : List Byte → Bool)
    (buf : List Byte) (st : St) : St :=
  if st.ctx.pending ≠ 0 then prpending o encErr f buf st buf.length else st

/-- The `nlines_first_null` update (line 1503): record the current
`nlines` when the probe fires. -/
def chunkNfn (probe : Bool) (nlines nfn : Int) : Int :=
  if probe then nlines else nfn

/-- The early abandonment for `--binary-files=without-match`
(lines 1499-1500). -/
def chunkEarlyWM (o : Opts) (probe : Bool) : Bool :=
  probe && decide (o.binary_files = BinaryFiles.withoutMatch)

/-- The termination test of the scan loop (lines 1540-1541):
`(!outleft && !pending) || (done_on_match && MAX (0, nlines_first_null)
< nlines)`. -/
def chunkDone (st : St) (nlines nfn : Int) : Bool :=
  (decide (st.ctx.outleft = 0) && decide (st.ctx.pending = 0)) ||
  (st.ctx.done_on_match && decide (max 0 nfn < nlines))

/-- Lines 1545-1568 with `save = 0`: reset `lastout` unless the output
is adjacent to the chunk end, then the `totalcc`/`totalnl`
bookkeeping. -/
def chunkBook (o : Opts) (buf : List Byte) (st : St) : St :=
  let ctx := st.ctx
  let ctx :=
    { ctx with lastout := if ctx.lastout = some buf.length then ctx.lastout else none }
  let ctx :=
    if o.out_byte then { ctx with totalcc := ctx.totalcc + buf.length } else ctx
  let ctx := if o.out_line then nlscan o.eolbyte buf ctx buf.length else ctx
  { st with ctx := ctx }

def grepFileGo (o : Opts) (encErr : List Byte → Bool) (f : List Byte → Bool) :
    List (List Byte) → St → Int → Int → St × Int × Int × Bool
  | [], st, nlines, nfn => (st, nlines, nfn, false)
  | c :: cs, st, nlines, nfn =>
    let probe := nulProbe o nfn c
    if chunkEarlyWM o probe then (st, 0, nfn, true)
    else
      let st := chunkFlags o probe st
      let nfn := chunkNfn probe nlines nfn
      let st := chunkReset st
      if c.length = 0 then (st, nlines, nfn, false)
      else
        let buf := scannedBuffer o nfn c
        let r := chunkScan o encErr f buf st
        let st := chunkPend o encErr f buf r.1
        let nlines := nlines + r.2
        if chunkDone st nlines nfn then (st, nlines, nfn, false)
        else grepFileGo o encErr f cs (chunkBook o buf st) nlines nfn

/-- The fresh per-file context `grep` builds at lines 1471-1479. -/
def initCtx (o : Opts) (name : String) : Ctx :=
  { filename := name, totalcc := 0, totalnl := 0, lastnl := 0, lastout := none,
    outleft := o.max_count, pending := 0, out_quiet := o.out_quiet,
    done_on_match := o.done_on_match, encoding_error_output := false }

/-- `grep` on one file: run the scan loop over the chunks, then the
`finish_grep` epilogue (restore the dynamic flags and print the
"Binary file ... matches" summary when due).  Returns the line count,
the output and the final global `used` flag. -/
def grepFile (o : Opts) (encErr : List Byte → Bool) (f : List Byte → Bool)
    (used0 : Bool) (name : String) (chunks : List (List Byte)) :
    Int × List OutEvent × Bool :=
  let st0 : St := { ctx := initCtx o name, used := used0, out := [] }
  let r := grepFileGo o encErr f chunks st0 0 (-1)
  let st := r.1
  let nlines := r.2.1
  let nfn := r.2.2.1
  if r.2.2.2 then (0, st.out, st.used)
  else
    let summary :=
      ¬ o.out_quiet ∧ (st.ctx.encoding_error_output ∨ (0 ≤ nfn ∧ nfn < nlines))
    (nlines,
     st.out ++ (if summary then [OutEvent.binarySummary name] else []),
     st.used)

/-! ## Rendering output events to bytes (lines 1019-1137) -/

/-- The separator character printed by `print_sep`:
`SEP_CHAR_SELECTED` is `:` (58), `SEP_CHAR_REJECTED` is `-` (45). -/
def sepByte (sel : Bool) : Byte :=
  if sel then 58 else 45

/-- Bytes of an ASCII string. -/
def stringBytes (s : String) : List Byte :=
  s.toList.map Char.toNat

/-- Render one head+line record: each present head field is followed by
the separator (the `pending_sep` logic of `print_line_head`). -/
def renderLine (l : OutLine) : List Byte :=
  (match l.fname with
   | none => []
   | some s => stringBytes s ++ [sepByte l.sel]) ++
  (match l.lineno with
   | none => []
   | some n => offsetDigits n ++ [sepByte l.sel]) ++
  (match l.byteoff with
   | none => []
   | some n => offsetDigits n ++ [sepByte l.sel]) ++
  l.content

/-- Render one output event; the group separator is `SEP_STR_GROUP`
(`--`) plus newline, the binary summary is the `finish_grep` printf. -/
def renderEvent : OutEvent → List Byte
  | OutEvent.line l => renderLine l
  | OutEvent.groupSep => [45, 45, 10]
  | OutEvent.binarySummary name =>
    stringBytes ("Binary file " ++ name ++ " matches\n")

/-- All bytes written to stdout for an event list. -/
def renderOutput (evs : List OutEvent) : List Byte :=
  (evs.map renderEvent).flatten

/-! ## print_line_middle (src/grep.c lines 1139-1205)

The within-line match loop used by `--color` and `-o`.  Here `execute`
is called with a start hint `cur`, so it is modelled as a function
`exec2 : Nat → Option (Nat × Nat)` from the hint to the
(offset, length) pair, both relative to the line start; the range has
`L` bytes.  The loop state is the scan position `cur`, the `mid`
marker for minimal-progress emission after zero-length matches, and
the spans highlighted so far.  `none` means the fuel ran out (the C
loop would still be running). -/
def plmLoop (exec2 : Nat → Option (Nat × Nat)) (L : Nat) :
    Nat → Nat → Option Nat → List (Nat × Nat) →
    Option (Nat × Option Nat × List (Nat × Nat))
  | 0, _, _, _ => none
  | fuel + 1, cur, mid, evs =>
    if cur < L then
      match exec2 cur with
      | none => some (cur, mid, evs)
      | some (mo, ms) =>
        let b := mo
        if b = L then some (cur, mid, evs)
        else if ms = 0 then
          plmLoop exec2 L fuel (b + 1) (if mid = none then some cur else mid) evs
        else
          plmLoop exec2 L fuel (b + ms) mid (evs ++ [(b, ms)])
    else some (cur, mid, evs)

/-! ## The dispatcher and worker pool (src/grep.c lines 1682-1759, 2897-2951)

A work item as the worker sees it: a display name and the chunks of
its contents.  The model runs the default single worker (`num_threads
= 1`) over the queue in FIFO order; the `-c`/`-l`/`-L` per-file
summaries and the stdin seek restore of `worker_thread_func` are not
exercised by the claims and are left out. -/
structure FileInput where
  name : String
  chunks : List (List Byte)
deriving Repr

/-- The worker loop (lines 1701-1756): for each dequeued file run
`grep`, update `status = !count && status`, and thread the global
`used` flag.  Returns the worker's return value, the final `used`
flag, and the output. -/
def workerRun (o : Opts) (encErr : List Byte → Bool) (f : List Byte → Bool) :
    List FileInput → Bool → Bool → Bool × Bool × List OutEvent × List Int
  | [], status, used => (status, used, [], [])
  | fi :: rest, status, used =>
    let r := grepFile o encErr f used fi.name fi.chunks
    let status := decide (r.1 = 0) && status
    let rr := workerRun o encErr f rest status r.2.2
    (rr.1, rr.2.1, r.2.1 ++ rr.2.2.1, r.1 :: rr.2.2.2)

/-- Main after option processing (lines 2897-2951): `-m 0` returns
`EXIT_FAILURE` before the work queue, the worker threads or any file
is touched; otherwise enqueue the files, run the worker, join, and
return `errseen ? EXIT_TROUBLE : status`.  The result is the exit
status, the stdout bytes, and the number of files scanned. -/
def mainRun (o : Opts) (encErr : List Byte → Bool) (f : List Byte → Bool)
    (errseen : Bool) (files : List FileInput) : Nat × List OutEvent × Nat :=
  if o.max_count = 0 then (1, [], 0)
  else
    let w := workerRun o encErr f files true false
    (if errseen then EXIT_TROUBLE else (if w.1 then 1 else 0), w.2.2.1, files.length)

/-! ## Derived observations used by the verification -/

/-- Number of selected lines (`SEP_CHAR_SELECTED` records) in an output
stream; context lines, group separators and binary summaries do not
count. -/
def selCount (evs : List OutEvent) : Nat :=
  evs.countP (fun e => match e with | OutEvent.line l => l.sel | _ => false)

/-- The contents of the selected lines in an output stream. -/
def selContents (evs : List OutEvent) : List (List Byte) :=
  evs.filterMap (fun e =>
    match e with
    | OutEvent.line l => if l.sel then some l.content else none
    | _ => none)

/-- The output record `prline` produces for the whole line `l` (0-based
global index `j`, starting at byte offset `off`) in a mode without
context or suppression. -/
def lineEvent (o : Opts) (name : String) (j off : Nat) (l : List Byte) :
    OutEvent :=
  OutEvent.line
    { fname := if o.out_file then some name else none
      lineno := if o.out_line then some (j + 1) else none
      byteoff := if o.out_byte then some off else none
      sel := true
      content := l }

/-- The reference output of a plain (no-context) scan over a line list:
one record per line whose match bit differs from `out_invert`, with
1-based line numbers from `j` and byte offsets from `off`. -/
def expectedGo (o : Opts) (f : List Byte → Bool) (name : String) :
    List (List Byte) → Nat → Nat → List OutEvent
  | [], _, _ => []
  | l :: ls, j, off =>
    (if f (lineContent l) ≠ o.out_invert then [lineEvent o name j off l] else []) ++
    expectedGo o f name ls (j + 1) (off + l.length)

/-- `INTMAX_MAX`, the initial `max_count` (src/grep.c line 2424). -/
def INTMAX_MAX : Int := 9223372036854775807

/-- The option state after parsing no options but `-v` possibly:
defaults from `main` (lines 2416-2430, 2813-2827) with a single
non-recursive input, so `out_file` stays false and
`out_before = out_after = -1`. -/
def plainOpts (inv : Bool) : Opts :=
  { eolbyte := 10, out_invert := inv, out_line := false, out_byte := false,
    out_file := false, out_before := -1, out_after := -1, out_quiet := false,
    done_on_match := false, max_count := INTMAX_MAX,
    binary_files := BinaryFiles.binary, count_matches := false,
    group_separator := true }

/-- The option state for `-nb` (line numbers and byte offsets). -/
def optsNB : Opts :=
  { plainOpts false with out_line := true, out_byte := true }

/-- A pattern predicate for the literal `x`: the line contains byte
`x` (0x78). -/
def matchesX (l : List Byte) : Bool :=
  l.contains 120

/-- A pattern predicate matching every line that contains byte `h`
(0x68). -/
def matchesH (l : List Byte) : Bool :=
  l.contains 104

/-- A pattern predicate matching lines that contain byte `a` (0x61). -/
def matchesA (l : List Byte) : Bool :=
  l.contains 97

/-- An encoding-error probe that never fires (e.g. the C locale, where
`unibyte_mask == 0`). -/
def noEncErr : List Byte → Bool := fun _ => false

/-- An encoding-error probe that flags any line containing byte 0xFF
(never valid in UTF-8). -/
def encErrFF (l : List Byte) : Bool :=
  l.contains 255

/-- A sample within-line matcher obeying the start-hint contract on a
3-byte range: a zero-length match at every position. -/
def c8exec : Nat → Option (Nat × Nat) :=
  fun cur => if cur < 3 then some (cur, 0) else none

/-- Plain options with `-m 1`. -/
def optsM1 : Opts :=
  { plainOpts false with max_count := 1 }

/-- A scan state whose budget is exhausted (`outleft = 0`,
`pending = 0`), as reached after `-m` lines were printed. -/
def stZero : St :=
  { ctx := { initCtx optsM1 "f" with outleft := 0 }, used := true, out := [] }

/-! ## Supporting lemmas: slices and line decompositions -/

/-- A well-formed line list: each line is nonempty, ends with the eol
byte, and contains no other eol byte. -/
def LinesWF (eol : Byte) (ls : List (List Byte)) : Prop :=
  ∀ l ∈ ls, l ≠ [] ∧ l.getLast? = some eol ∧ eol ∉ l.dropLast

theorem slice_eq_drop_take (bs : List Byte) (p q : Nat) :
    slice bs p q = (bs.drop p).take (q - p) := by
  simp [slice, List.drop_take]

theorem slice_zero (bs : List Byte) (q : Nat) : slice bs 0 q = bs.take q := by
  simp [slice]

theorem slice_length_eq_drop (bs : List Byte) (p : Nat) :
    slice bs p bs.length = bs.drop p := by
  simp [slice]

theorem slice_append_left (pre rest : List Byte) (q : Nat) :
    slice (pre ++ rest) pre.length (pre.length + q) = rest.take q := by
  simp [slice_eq_drop_take, List.drop_append 0]

theorem slice_mid (pre l rest : List Byte) :
    slice (pre ++ l ++ rest) pre.length (pre.length + l.length) = l := by
  have h := slice_append_left pre (l ++ rest) l.length
  rw [← List.append_assoc] at h
  simpa [List.take_append] using h

theorem take_append_slice (bs : List Byte) (p q : Nat) (h : p ≤ q) :
    bs.take q = bs.take p ++ slice bs p q := by
  have : bs.take p = (bs.take q).take p := by
    rw [List.take_take, Nat.min_eq_left h]
  rw [this, slice, List.take_append_drop]

theorem countEol_append (eol : Byte) (a b : List Byte) :
    countEol eol (a ++ b) = countEol eol a + countEol eol b := by
  simp [countEol, List.countP_append]

/-- A well-formed line has exactly one eol byte. -/
theorem countEol_line (eol : Byte) (l : List Byte)
    (h1 : l ≠ []) (h2 : l.getLast? = some eol) (h3 : eol ∉ l.dropLast) :
    countEol eol l = 1 := by
  obtain ⟨ys, rfl⟩ := List.getLast?_eq_some_iff.mp h2
  rw [List.dropLast_concat] at h3
  rw [countEol_append]
  have h0 : countEol eol ys = 0 := by
    simp only [countEol, List.countP_eq_zero]
    intro a ha hEq
    exact h3 ((of_decide_eq_true hEq) ▸ ha)
  have h4 : countEol eol [eol] = 1 := by simp [countEol]
  omega

/-- The flat bytes of `n` well-formed lines contain exactly `n` eol
bytes. -/
theorem countEol_flatten (eol : Byte) (ls : List (List Byte))
    (hwf : LinesWF eol ls) :
    countEol eol ls.flatten = ls.length := by
  induction ls with
  | nil => simp [countEol]
  | cons l ls ih =>
    have hl := hwf l (by simp)
    have hrest : LinesWF eol ls := fun x hx => hwf x (by simp [hx])
    rw [List.flatten_cons, countEol_append, countEol_line eol l hl.1 hl.2.1 hl.2.2,
      ih hrest]
    simp [Nat.add_comm]

theorem linesWF_cons (eol : Byte) (l : List Byte) (ls : List (List Byte))
    (h : LinesWF eol (l :: ls)) :
    (l ≠ [] ∧ l.getLast? = some eol ∧ eol ∉ l.dropLast) ∧ LinesWF eol ls :=
  ⟨h l (by simp), fun x hx => h x (by simp [hx])⟩

theorem linesWF_append (eol : Byte) (a b : List (List Byte))
    (ha : LinesWF eol a) (hb : LinesWF eol b) : LinesWF eol (a ++ b) := by
  intro l hl
  rcases List.mem_append.mp hl with h | h
  · exact ha l h
  · exact hb l h

theorem linesWF_append_elim (eol : Byte) (a b : List (List Byte))
    (h : LinesWF eol (a ++ b)) : LinesWF eol a ∧ LinesWF eol b :=
  ⟨fun l hl => h l (List.mem_append.mpr (Or.inl hl)),
   fun l hl => h l (List.mem_append.mpr (Or.inr hl))⟩

/-- Splitting off one well-formed line from the front of a byte stream. -/
theorem toLinesAux_line (eol : Byte) (content rest acc : List Byte)
    (hc : eol ∉ content) :
    toLinesAux eol acc (content ++ eol :: rest) =
      (acc ++ content ++ [eol]) :: toLinesAux eol [] rest := by
  induction content generalizing acc with
  | nil => simp [toLinesAux]
  | cons b bs ih =>
    have hb : b ≠ eol := fun h => hc (h ▸ List.mem_cons_self b bs)
    have hbs : eol ∉ bs := fun h => hc (List.mem_cons_of_mem b h)
    simp only [List.cons_append, toLinesAux, if_neg hb, List.append_eq]
    rw [ih (acc ++ [b]) hbs]
    simp

/-- `toLines` is a left inverse of `flatten` on well-formed line
lists. -/
theorem toLines_flatten (eol : Byte) (ls : List (List Byte))
    (hwf : LinesWF eol ls) :
    toLines eol ls.flatten = ls := by
  induction ls with
  | nil => simp [toLines, toLinesAux]
  | cons l ls ih =>
    obtain ⟨⟨h1, h2, h3⟩, hrest⟩ := linesWF_cons eol l ls hwf
    obtain ⟨ys, rfl⟩ := List.getLast?_eq_some_iff.mp h2
    rw [List.dropLast_concat] at h3
    have key := toLinesAux_line eol ys (ls.flatten) [] h3
    have ihe : toLinesAux eol [] ls.flatten = ls := by simpa [toLines] using ih hrest
    show toLinesAux eol [] (((ys ++ [eol]) :: ls).flatten) = _
    have hfl : ((ys ++ [eol]) :: ls).flatten = ys ++ eol :: ls.flatten := by simp
    rw [hfl, key, ihe]
    simp

/-- The residue of the line splitter: the bytes after the last eol. -/
def lineResAux (eol : Byte) (acc : List Byte) : List Byte → List Byte
  | [] => acc
  | b :: bs => if b = eol then lineResAux eol [] bs else lineResAux eol (acc ++ [b]) bs

theorem flatten_toLinesAux (eol : Byte) (bs acc : List Byte) :
    (toLinesAux eol acc bs).flatten ++ lineResAux eol acc bs = acc ++ bs := by
  induction bs generalizing acc with
  | nil => simp [toLinesAux, lineResAux]
  | cons b tl ih =>
    by_cases hb : b = eol
    · simp only [toLinesAux, lineResAux, if_pos hb, List.flatten_cons]
      rw [List.append_assoc, ih []]
      simp [hb]
    · simp only [toLinesAux, lineResAux, if_neg hb]
      rw [ih (acc ++ [b])]
      simp

theorem lineResAux_eq_nil (eol : Byte) (bs : List Byte) (acc : List Byte)
    (h : bs.getLast? = some eol) : lineResAux eol acc bs = [] := by
  induction bs generalizing acc with
  | nil => simp at h
  | cons b tl ih =>
    cases tl with
    | nil =>
      have hb : b = eol := by simpa using h
      simp [lineResAux, hb]
    | cons c tl2 =>
      have h2 : (c :: tl2).getLast? = some eol := by
        rw [List.getLast?_cons_cons] at h
        exact h
      by_cases hb : b = eol
      · simp only [lineResAux, if_pos hb]
        exact ih [] h2
      · simp only [lineResAux, if_neg hb]
        exact ih (acc ++ [b]) h2

/-- A buffer ending in eol is exactly the flat bytes of its lines. -/
theorem flatten_toLines (eol : Byte) (bs : List Byte)
    (h : bs.getLast? = some eol) :
    (toLines eol bs).flatten = bs := by
  have := flatten_toLinesAux eol bs []
  rw [lineResAux_eq_nil eol bs [] h] at this
  simpa [toLines] using this

/-- The lines produced by `toLines` are well formed. -/
theorem toLinesAux_wf (eol : Byte) (bs acc : List Byte) (hacc : eol ∉ acc) :
    LinesWF eol (toLinesAux eol acc bs) := by
  induction bs generalizing acc with
  | nil => intro l hl; simp [toLinesAux] at hl
  | cons b tl ih =>
    by_cases hb : b = eol
    · intro l hl
      simp only [toLinesAux, if_pos hb, List.mem_cons] at hl
      rcases hl with hEq | hl
      · subst hEq
        refine ⟨by simp, by simp, ?_⟩
        rw [List.dropLast_concat]
        exact hacc
      · exact ih [] (by simp) l hl
    · intro l hl
      simp only [toLinesAux, if_neg hb] at hl
      refine ih (acc ++ [b]) ?_ l hl
      intro hc
      rcases List.mem_append.mp hc with h | h
      · exact hacc h
      · simp only [List.mem_singleton] at h
        exact hb h.symm

theorem toLines_wf (eol : Byte) (bs : List Byte) :
    LinesWF eol (toLines eol bs) :=
  toLinesAux_wf eol bs [] (by simp)

/-- `execute` finds no line exactly when no line content matches. -/
theorem execLinesGo_eq_none (f : List Byte → Bool) (ls : List (List Byte)) :
    execLinesGo f ls = none ↔ ∀ l ∈ ls, f (lineContent l) = false := by
  induction ls with
  | nil => simp [execLinesGo]
  | cons l ls ih =>
    by_cases hf : f (lineContent l)
    · simp [execLinesGo, hf]
    · simp only [execLinesGo, if_neg hf]
      cases hg : execLinesGo f ls with
      | none =>
        simp only [List.mem_cons]
        constructor
        · intro _ x hx
          rcases hx with rfl | hx
          · exact Bool.of_not_eq_true hf
          · exact (ih.mp hg) x hx
        · intro _; trivial
      | some v =>
        simp only [List.mem_cons]
        constructor
        · intro h; exact absurd h (by simp)
        · intro h
          have : execLinesGo f ls = none := ih.mpr (fun x hx => h x (Or.inr hx))
          rw [this] at hg; exact absurd hg (by simp)

/-- `execute` with a match decomposes the line list into a non-matching
block, the first matching line, and the remainder; the offset is the
byte length of the block and the length is the matching line's. -/
theorem execLinesGo_eq_some (f : List Byte → Bool) (ls : List (List Byte))
    (mo ms : Nat) (h : execLinesGo f ls = some (mo, ms)) :
    ∃ A l2 B, ls = A ++ l2 :: B ∧ (∀ x ∈ A, f (lineContent x) = false) ∧
      f (lineContent l2) = true ∧ mo = A.flatten.length ∧ ms = l2.length := by
  induction ls generalizing mo ms with
  | nil => simp [execLinesGo] at h
  | cons l ls ih =>
    by_cases hf : f (lineContent l)
    · refine ⟨[], l, ls, by simp, by simp, hf, ?_, ?_⟩ <;>
        · simp only [execLinesGo, if_pos hf, Option.some_inj, Prod.mk.injEq] at h
          simp [h.1.symm, h.2.symm]
    · simp only [execLinesGo, if_neg hf] at h
      cases hg : execLinesGo f ls with
      | none => rw [hg] at h; exact absurd h (by simp)
      | some v =>
        rw [hg] at h
        obtain ⟨mo2, ms2⟩ := v
        simp only [Option.some_inj, Prod.mk.injEq] at h
        obtain ⟨A, l2, B, hsplit, hA, hl2, hmo, hms⟩ := ih mo2 ms2 hg
        refine ⟨l :: A, l2, B, by simp [hsplit], ?_, hl2, ?_, ?_⟩
        · intro x hx
          rcases List.mem_cons.mp hx with rfl | hx
          · exact Bool.of_not_eq_true hf
          · exact hA x hx
        · simp [← h.1, hmo]
          omega
        · rw [← h.2, hms]

/-- Every well-formed line contributes at least one byte. -/
theorem length_le_length_flatten (eol : Byte) (ls : List (List Byte))
    (hwf : LinesWF eol ls) :
    ls.length ≤ ls.flatten.length := by
  induction ls with
  | nil => simp
  | cons l ls ih =>
    have hl := hwf l (by simp)
    have hrest : LinesWF eol ls := fun x hx => hwf x (by simp [hx])
    have h1 : 1 ≤ l.length := by
      cases l with
      | nil => exact absurd rfl hl.1
      | cons a as => simp
    have h2 := ih hrest
    simp only [List.length_cons, List.flatten_cons, List.length_append]
    omega

end MTGrep

namespace MTGrep

/-! ## Boolean fold lemmas for the status aggregation -/

theorem foldl_and_comm {α : Type} (p : α → Bool) (s : Bool) (cs : List α) :
    cs.foldl (fun acc c => p c && acc) s = (cs.all p && s) := by
  induction cs generalizing s with
  | nil => simp
  | cons c tl ih =>
    rw [List.foldl_cons, ih (p c && s), List.all_cons]
    cases p c <;> cases tl.all p <;> cases s <;> rfl

theorem foldl_and_id (s : Bool) (ws : List Bool) :
    ws.foldl (fun a w => a && w) s = (s && ws.all id) := by
  induction ws generalizing s with
  | nil => simp
  | cons w tl ih =>
    rw [List.foldl_cons, ih (s && w), List.all_cons]
    cases w <;> cases tl.all id <;> cases s <;> rfl

theorem workerStatusFold_eq_all (counts : List Int) :
    workerStatusFold counts = counts.all (fun c => decide (c = 0)) := by
  rw [workerStatusFold, foldl_and_comm, Bool.and_true]

theorem joinStatus_eq_all (ws : List Bool) :
    joinStatus ws = ws.all id := by
  rw [joinStatus, foldl_and_id, Bool.true_and]

/-- C1: the exit status is 0 exactly when some file produced at least
one selected line and no error was seen; 1 when nothing matched and no
error; 2 when an error was seen; and under `--quiet` the
`exit (errseen ? exit_failure : EXIT_SUCCESS)` taken on the first
match is 0 because `-q` sets `exit_failure = 0`. -/
theorem c1_exit_status (errseen : Bool) (css : List (List Int)) :
    (finalExit errseen (css.map workerStatusFold) =
      if errseen then 2
      else if css.any (fun cs => cs.any (fun c => decide (c ≠ 0))) then 0 else 1) ∧
    grepbufExitOnMatch errseen 0 = 0 := by
  constructor
  · cases errseen with
    | true => rfl
    | false =>
      rw [finalExit]
      simp only [Bool.false_eq_true, if_false]
      have h1 : joinStatus (css.map workerStatusFold) =
          css.all (fun cs => cs.all (fun c => decide (c = 0))) := by
        rw [joinStatus_eq_all]
        induction css with
        | nil => rfl
        | cons cs tl ih => simp [workerStatusFold_eq_all, ih]
      rw [h1]
      cases hAll : css.all (fun cs => cs.all (fun c => decide (c = 0))) with
      | true =>
        have hAny : css.any (fun cs => cs.any (fun c => decide (c ≠ 0))) = false := by
          rw [List.any_eq_false]
          intro cs hcs hex
          obtain ⟨c, hc, hcne⟩ := List.any_eq_true.mp hex
          have h2 := (List.all_eq_true.mp ((List.all_eq_true.mp hAll) cs hcs)) c hc
          simp only [decide_eq_true_eq] at h2 hcne
          exact hcne h2
        rw [hAny]
        rfl
      | false =>
        have hAny : css.any (fun cs => cs.any (fun c => decide (c ≠ 0))) = true := by
          rw [List.all_eq_false] at hAll
          obtain ⟨cs, hcs, hcsf⟩ := hAll
          have hcsf2 := Bool.of_not_eq_true hcsf
          rw [List.all_eq_false] at hcsf2
          obtain ⟨c, hc, hcf⟩ := hcsf2
          rw [List.any_eq_true]
          refine ⟨cs, hcs, ?_⟩
          rw [List.any_eq_true]
          refine ⟨c, hc, ?_⟩
          simp only [decide_eq_true_eq] at hcf ⊢
          exact hcf
        rw [hAny]
        rfl
  · cases errseen <;> rfl

/-- C5 counterexample: a worker that processed one file which produced
one output line returns `false`, while the claim's reading ("all files
produced at least one match") predicts `true`. -/
theorem c5_counterexample :
    workerStatusFold [1] = false ∧ specWorkerAllMatched [1] = true := by
  decide

/-- C5 (amended): a worker's return value is the boolean "every file it
processed produced zero output lines" (the negation of the claim's
wording), and the final pre-error status is the AND of the workers'
return values (so the exit, absent errors, is 1 exactly when no file
matched). -/
theorem c5_worker_status (o : Opts) (encErr : List Byte → Bool)
    (f : List Byte → Bool) (files : List FileInput) (s u : Bool)
    (ws : List Bool) :
    (workerRun o encErr f files s u).1 =
      (((workerRun o encErr f files s u).2.2.2).all (fun c => decide (c = 0)) && s) ∧
    joinStatus ws = ws.all id ∧
    finalExit false ws = (if ws.all id then 1 else 0) := by
  refine ⟨?_, joinStatus_eq_all ws, ?_⟩
  · induction files generalizing s u with
    | nil => simp [workerRun]
    | cons fi rest ih =>
      simp only [workerRun]
      rw [ih (decide ((grepFile o encErr f u fi.name fi.chunks).1 = 0) && s)
        ((grepFile o encErr f u fi.name fi.chunks).2.2)]
      simp only [List.all_cons]
      cases decide ((grepFile o encErr f u fi.name fi.chunks).1 = 0) <;>
        cases ((workerRun o encErr f rest
          (false && s) u).2.2.2).all (fun c => decide (c = 0)) <;> simp
  · rw [finalExit, joinStatus_eq_all]
    rfl

/-- C9: `add_count` returns the exact sum whenever it is representable
in `uintmax_t`, and takes the fatal diagnostic path (exit status
`EXIT_TROUBLE = 2`) exactly when the mod-2^64 sum wraps around
(`a + b < a`), equivalently exactly when the true sum is not
representable. -/
theorem c9_add_count_spec (a b : Nat) (ha : a < uintmaxMod) (hb : b < uintmaxMod) :
    (a + b < uintmaxMod → add_count a b = some (a + b)) ∧
    (add_count a b = none ↔ (a + b) % uintmaxMod < a) ∧
    (add_count a b = none ↔ uintmaxMod ≤ a + b) ∧
    EXIT_TROUBLE = 2 := by
  by_cases hlt : a + b < uintmaxMod
  · have hmod : (a + b) % uintmaxMod = a + b := Nat.mod_eq_of_lt hlt
    refine ⟨fun _ => ?_, ?_, ?_, rfl⟩
    · simp only [add_count]
      rw [hmod, if_neg (by omega : ¬ a + b < a)]
    · simp only [add_count]
      rw [hmod, if_neg (by omega : ¬ a + b < a)]
      constructor
      · intro h; exact absurd h (by simp)
      · intro h; exact absurd h (by omega)
    · simp only [add_count]
      rw [hmod, if_neg (by omega : ¬ a + b < a)]
      constructor
      · intro h; exact absurd h (by simp)
      · intro h; exact absurd hlt (by omega)
  · have hge : uintmaxMod ≤ a + b := Nat.le_of_not_lt hlt
    have h2 : a + b - uintmaxMod < uintmaxMod := by omega
    have hmod : (a + b) % uintmaxMod = a + b - uintmaxMod := by
      rw [Nat.mod_eq_sub_mod hge, Nat.mod_eq_of_lt h2]
    refine ⟨fun h => absurd h hlt, ?_, ?_, rfl⟩
    · simp only [add_count]
      rw [hmod, if_pos (by omega : a + b - uintmaxMod < a)]
      exact ⟨fun _ => by omega, fun _ => rfl⟩
    · simp only [add_count]
      rw [hmod, if_pos (by omega : a + b - uintmaxMod < a)]
      exact ⟨fun _ => hge, fun _ => rfl⟩

/-- Witness for C9 at `a = 3`, `b = 4`. -/
theorem c9_add_count_spec_witness :
    ((3 : Nat) < uintmaxMod ∧ (4 : Nat) < uintmaxMod) ∧
    ((3 + 4 < uintmaxMod → add_count 3 4 = some (3 + 4)) ∧
     (add_count 3 4 = none ↔ (3 + 4) % uintmaxMod < 3) ∧
     (add_count 3 4 = none ↔ uintmaxMod ≤ 3 + 4) ∧
     EXIT_TROUBLE = 2) :=
  ⟨⟨by norm_num [uintmaxMod], by norm_num [uintmaxMod]⟩,
   c9_add_count_spec 3 4 (by norm_num [uintmaxMod]) (by norm_num [uintmaxMod])⟩

/-- C10: `-m 0` makes `main` return `EXIT_FAILURE` (1) straight after
option processing: nothing is enqueued, no file is opened or scanned,
and stdout receives no bytes. -/
theorem c10_max_count_zero (o : Opts) (encErr : List Byte → Bool)
    (f : List Byte → Bool) (errseen : Bool) (files : List FileInput)
    (h : o.max_count = 0) :
    mainRun o encErr f errseen files = (1, [], 0) := by
  simp [mainRun, h]

/-- Witness for C10 with a concrete pending input file. -/
theorem c10_max_count_zero_witness :
    ({ plainOpts false with max_count := 0 } : Opts).max_count = 0 ∧
    mainRun { plainOpts false with max_count := 0 } noEncErr matchesX false
      [⟨"f", [[120, 10]]⟩] = (1, [], 0) :=
  ⟨rfl, c10_max_count_zero _ _ _ _ _ rfl⟩

end MTGrep

namespace MTGrep

/-! ## NUL-zap lemmas -/

theorem zapNulsGo_eq_map (eol : Byte) (bs : List Byte) :
    zapNulsGo eol bs = bs.map (fun b => if b = 0 then eol else b) := by
  induction bs with
  | nil => rfl
  | cons b tl ih => simp [zapNulsGo, ih]

theorem zero_not_mem_zapNulsGo (eol : Byte) (bs : List Byte) (he : eol ≠ 0) :
    (0 : Byte) ∉ zapNulsGo eol bs := by
  rw [zapNulsGo_eq_map]
  intro hmem
  obtain ⟨b, hb, hEq⟩ := List.mem_map.mp hmem
  by_cases hb0 : b = 0
  · rw [if_pos hb0] at hEq
    exact he hEq
  · rw [if_neg hb0] at hEq
    exact hb0 hEq

theorem buf_has_nulls_false (bs : List Byte) (h : buf_has_nulls bs = false) :
    (0 : Byte) ∉ bs := by
  induction bs with
  | nil => simp
  | cons b tl ih =>
    by_cases hb : b = 0
    · exfalso
      subst hb
      rw [buf_has_nulls, List.takeWhile_cons] at h
      simp at h
    · intro hmem
      rcases List.mem_cons.mp hmem with hEq | hmem2
      · exact hb hEq.symm
      · refine ih ?_ hmem2
        rw [buf_has_nulls, List.takeWhile_cons] at h
        rw [buf_has_nulls]
        simp only [hb, ne_eq, not_false_eq_true, decide_True, if_true,
          List.length_cons, decide_eq_false_iff_not, Decidable.not_not] at h ⊢
        omega

/-- C7 counterexample: with `--binary-files=text` the NUL zapper is
never armed, `zap_nuls` is called with zapper byte 0 and is a no-op, so
a NUL byte survives into the scanned region — the emitted matching line
still contains byte 0 — contradicting "no NUL byte remains in the
scanned region" on that iteration. -/
theorem c7_counterexample :
    scannedBuffer { plainOpts false with binary_files := BinaryFiles.text }
        (-1) [0, 10] = [0, 10] ∧
    (0 : Byte) ∈ scannedBuffer { plainOpts false with binary_files := BinaryFiles.text }
        (-1) [0, 10] ∧
    (grepFile { plainOpts false with binary_files := BinaryFiles.text } noEncErr
        (fun l => l.contains 0) false "f" [[0, 10]]).2.1 =
      [OutEvent.line
        { fname := none, lineno := none, byteoff := none, sel := true,
          content := [0, 10] }] := by
  decide

/-- C7 (amended): `zap_nuls` with a nonzero zapper replaces every NUL
byte of the live range with the eol byte, leaving no NUL; with zapper 0
it is the identity.  The zapper is armed (set to eol) exactly once NULs
are deduced, so on any scan-loop iteration with `binary_files ≠ text`
and a nonzero eol byte the region handed to `grepbuf` is NUL-free;
with `--binary-files=text` or `-z` the region is scanned unmodified. -/
theorem c7_zap_nuls (eol : Byte) (bs c : List Byte) (o : Opts)
    (nfn nlines : Int) (he : eol ≠ 0) (ho : o.eolbyte ≠ 0)
    (ht : o.binary_files ≠ BinaryFiles.text) (hn : 0 ≤ nlines) :
    zap_nuls eol bs = bs.map (fun b => if b = 0 then eol else b) ∧
    (0 : Byte) ∉ zap_nuls eol bs ∧
    zap_nuls 0 bs = bs ∧
    (0 : Byte) ∉ scannedBuffer o (if nulProbe o nfn c then nlines else nfn) c := by
  refine ⟨?_, ?_, ?_, ?_⟩
  · rw [zap_nuls, if_pos he, zapNulsGo_eq_map]
  · rw [zap_nuls, if_pos he]
    exact zero_not_mem_zapNulsGo eol bs he
  · simp [zap_nuls]
  · by_cases hprobe : nulProbe o nfn c = true
    · rw [if_pos hprobe]
      rw [scannedBuffer, if_pos hn, zap_nuls, if_pos ho]
      exact zero_not_mem_zapNulsGo o.eolbyte c ho
    · rw [if_neg hprobe]
      by_cases hge : 0 ≤ nfn
      · rw [scannedBuffer, if_pos hge, zap_nuls, if_pos ho]
        exact zero_not_mem_zapNulsGo o.eolbyte c ho
      · have hfn : decide (nfn < 0) = true := by
          simp only [decide_eq_true_eq]
          omega
        have hnulls : buf_has_nulls c = false := by
          by_contra hbn
          apply hprobe
          rw [nulProbe]
          simp only [Bool.and_eq_true, decide_eq_true_eq]
          exact ⟨⟨⟨by omega, ho⟩, ht⟩, Bool.of_not_eq_false hbn⟩
        rw [scannedBuffer, if_neg hge]
        simp only [zap_nuls, ne_eq, not_true_eq_false, if_neg (by simp : ¬ (0 : Byte) ≠ 0)]
        exact buf_has_nulls_false c hnulls

/-- Witness for C7 (amended) at a concrete armed iteration. -/
theorem c7_zap_nuls_witness :
    ((10 : Byte) ≠ 0 ∧ (plainOpts false).eolbyte ≠ 0 ∧
     (plainOpts false).binary_files ≠ BinaryFiles.text ∧ (0 : Int) ≤ 1) ∧
    (zap_nuls 10 [104, 0, 10] = [104, 10, 10] ∧
     (0 : Byte) ∉ zap_nuls 10 [104, 0, 10] ∧
     zap_nuls 0 [104, 0, 10] = [104, 0, 10] ∧
     (0 : Byte) ∉ scannedBuffer (plainOpts false)
       (if nulProbe (plainOpts false) (-1) [104, 0, 10] then 1 else (-1)) [104, 0, 10]) := by
  constructor
  · exact ⟨by decide, by decide, by decide, by decide⟩
  · have h := c7_zap_nuls 10 [104, 0, 10] [104, 0, 10] (plainOpts false) (-1) 1
      (by decide) (by decide) (by decide) (by decide)
    exact ⟨by decide, h.2.1, h.2.2.1, h.2.2.2⟩

end MTGrep

namespace MTGrep

/-- C8: in the `print_line_middle` match loop, a zero-length match at a
non-terminal position `b` makes the loop resume at `b + 1` — at least
one byte past the previous `execute` start hint — and consequently, for
any matcher obeying the start-hint contract (a reported match starts at
or after the hint and ends within the range), the loop terminates on
every finite range: fuel exceeding the remaining bytes is never
exhausted. -/
theorem c8_zero_length_progress :
    (∀ (exec2 : Nat → Option (Nat × Nat)) (L fuel cur mo : Nat)
        (mid : Option Nat) (evs : List (Nat × Nat)),
      exec2 cur = some (mo, 0) → cur < L → mo ≠ L → cur ≤ mo →
      plmLoop exec2 L (fuel + 1) cur mid evs =
        plmLoop exec2 L fuel (mo + 1) (if mid = none then some cur else mid) evs ∧
      cur + 1 ≤ mo + 1) ∧
    (∀ (exec2 : Nat → Option (Nat × Nat)) (L : Nat),
      (∀ cur mo ms, exec2 cur = some (mo, ms) → cur ≤ mo ∧ mo + ms ≤ L) →
      ∀ (fuel cur : Nat) (mid : Option Nat) (evs : List (Nat × Nat)),
        L - cur < fuel → (plmLoop exec2 L fuel cur mid evs).isSome = true) := by
  constructor
  · intro exec2 L fuel cur mo mid evs hexec hcur hmo hle
    constructor
    · simp only [plmLoop, if_pos hcur, hexec]
      rw [if_neg hmo]
      simp
    · omega
  · intro exec2 L hc fuel
    induction fuel with
    | zero => intro cur mid evs hf; omega
    | succ fuel ih =>
      intro cur mid evs hf
      by_cases hcur : cur < L
      · cases hexec : exec2 cur with
        | none => simp [plmLoop, hcur, hexec]
        | some v =>
          obtain ⟨mo, ms⟩ := v
          have hcon := hc cur mo ms hexec
          by_cases hmo : mo = L
          · simp [plmLoop, hcur, hexec, hmo]
          · by_cases hms : ms = 0
            · subst hms
              simp only [plmLoop, if_pos hcur, hexec, if_neg hmo, if_pos rfl]
              exact ih (mo + 1) (if mid = none then some cur else mid) evs (by omega)
            · simp only [plmLoop, if_pos hcur, hexec, if_neg hmo, if_neg hms]
              exact ih (mo + ms) mid (evs ++ [(mo, ms)]) (by omega)
      · simp [plmLoop, hcur]

/-- Witness for C8 with a concrete zero-length matcher on a 3-byte
range. -/
theorem c8_zero_length_progress_witness :
    (c8exec 0 = some (0, 0) ∧ 0 < 3 ∧ (0 : Nat) ≠ 3 ∧ (0 : Nat) ≤ 0) ∧
    (plmLoop c8exec 3 6 0 none [] = plmLoop c8exec 3 5 1 (some 0) [] ∧
      0 + 1 ≤ 0 + 1) ∧
    (plmLoop c8exec 3 4 0 none []).isSome = true := by
  refine ⟨⟨rfl, by decide, by decide, by decide⟩, ?_, ?_⟩
  · have h := c8_zero_length_progress.1 c8exec 3 5 0 0 none [] rfl
      (by decide) (by decide) (by decide)
    exact ⟨h.1.trans (by rw [if_pos rfl]), h.2⟩
  · refine c8_zero_length_progress.2 c8exec 3 ?_ 4 0 none [] (by decide)
    intro cur mo ms h
    by_cases hcur : cur < 3
    · simp only [c8exec, if_pos hcur, Option.some_inj, Prod.mk.injEq] at h
      omega
    · simp [c8exec, hcur] at h

end MTGrep

namespace MTGrep

/-! ## Budget (`outleft`) invariants for C3 -/

theorem selCount_append (a b : List OutEvent) :
    selCount (a ++ b) = selCount a + selCount b := by
  simp [selCount, List.countP_append]

theorem print_line_head_frame (o : Opts) (encErr : List Byte → Bool)
    (buf : List Byte) (ctx : Ctx) (begIdx len limIdx : Nat) :
    (print_line_head o encErr buf ctx begIdx len limIdx).1.outleft = ctx.outleft ∧
    (print_line_head o encErr buf ctx begIdx len limIdx).1.pending = ctx.pending ∧
    (print_line_head o encErr buf ctx begIdx len limIdx).1.totalcc = ctx.totalcc ∧
    (print_line_head o encErr buf ctx begIdx len limIdx).1.filename = ctx.filename ∧
    (print_line_head o encErr buf ctx begIdx len limIdx).1.lastout = ctx.lastout := by
  simp only [print_line_head, nlscan]
  refine ⟨?_, ?_, ?_, ?_, ?_⟩ <;> (repeat' split) <;> rfl

theorem prline_frame (o : Opts) (encErr : List Byte → Bool) (buf : List Byte)
    (st : St) (begIdx limIdx : Nat) (sel : Bool) :
    (prline o encErr buf st begIdx limIdx sel).ctx.outleft = st.ctx.outleft ∧
    (prline o encErr buf st begIdx limIdx sel).ctx.pending = st.ctx.pending ∧
    selCount (prline o encErr buf st begIdx limIdx sel).out ≤
      selCount st.out + (if sel then 1 else 0) ∧
    (sel = false →
      selCount (prline o encErr buf st begIdx limIdx sel).out = selCount st.out) := by
  have hf := print_line_head_frame o encErr buf st.ctx begIdx (limIdx - begIdx - 1) limIdx
  rw [prline]
  cases hh : print_line_head o encErr buf st.ctx begIdx (limIdx - begIdx - 1) limIdx with
  | mk ctx2 hd =>
    rw [hh] at hf
    cases hd with
    | none =>
      simp only
      exact ⟨hf.1, hf.2.1, by omega, fun _ => by first | rfl | trivial⟩
    | some head =>
      simp only [selCount_append]
      refine ⟨hf.1, hf.2.1, ?_, ?_⟩
      · cases sel <;> simp [selCount]
      · intro hs; subst hs; simp [selCount]

theorem prpendingLoop_frame (o : Opts) (encErr : List Byte → Bool)
    (f : List Byte → Bool) (buf : List Byte) (limIdx : Nat) :
    ∀ (fuel : Nat) (st : St),
    (prpendingLoop o encErr f buf limIdx fuel st).ctx.outleft = st.ctx.outleft ∧
    selCount (prpendingLoop o encErr f buf limIdx fuel st).out = selCount st.out := by
  intro fuel
  induction fuel with
  | zero => intro st; exact ⟨rfl, rfl⟩
  | succ fuel ih =>
    intro st
    simp only [prpendingLoop]
    split
    · split
      · set st1 := { st with ctx := { st.ctx with pending := st.ctx.pending - 1 } } with hst1
        have hp := prline_frame o encErr buf st1 (st.ctx.lastout.getD 0)
          (findEolFrom o.eolbyte buf (st.ctx.lastout.getD 0) limIdx + 1) false
        have hr := ih (prline o encErr buf st1 (st.ctx.lastout.getD 0)
          (findEolFrom o.eolbyte buf (st.ctx.lastout.getD 0) limIdx + 1) false)
        constructor
        · rw [hr.1, hp.1]
        · rw [hr.2, hp.2.2.2 rfl]
      · exact ⟨rfl, rfl⟩
    · exact ⟨rfl, rfl⟩

theorem prpending_frame (o : Opts) (encErr : List Byte → Bool)
    (f : List Byte → Bool) (buf : List Byte) (st : St) (limIdx : Nat) :
    (prpending o encErr f buf st limIdx).ctx.outleft = st.ctx.outleft ∧
    selCount (prpending o encErr f buf st limIdx).out = selCount st.out := by
  rw [prpending]
  split
  · exact prpendingLoop_frame o encErr f buf limIdx _ _
  · exact prpendingLoop_frame o encErr f buf limIdx _ _

theorem prtextRejLoop_frame (o : Opts) (encErr : List Byte → Bool)
    (buf : List Byte) (begIdx : Nat) :
    ∀ (fuel p : Nat) (st : St),
    (prtextRejLoop o encErr buf begIdx fuel p st).ctx.outleft = st.ctx.outleft ∧
    selCount (prtextRejLoop o encErr buf begIdx fuel p st).out = selCount st.out := by
  intro fuel
  induction fuel with
  | zero => intro p st; exact ⟨rfl, rfl⟩
  | succ fuel ih =>
    intro p st
    rw [prtextRejLoop]
    split
    · have hp := prline_frame o encErr buf st p
        (findEolFrom o.eolbyte buf p begIdx + 1) false
      have hr := ih (findEolFrom o.eolbyte buf p begIdx + 1)
        (prline o encErr buf st p (findEolFrom o.eolbyte buf p begIdx + 1) false)
      constructor
      · rw [hr.1, hp.1]
      · rw [hr.2, hp.2.2.2 rfl]
    · exact ⟨rfl, rfl⟩

theorem prtextInvLoop_frame (o : Opts) (encErr : List Byte → Bool)
    (buf : List Byte) (limIdx : Nat) :
    ∀ (fuel p : Nat) (n : Int) (st : St),
    (prtextInvLoop o encErr buf limIdx fuel p n st).1.ctx.outleft = st.ctx.outleft ∧
    n ≤ (prtextInvLoop o encErr buf limIdx fuel p n st).2 ∧
    ((prtextInvLoop o encErr buf limIdx fuel p n st).2 = n ∨
      (prtextInvLoop o encErr buf limIdx fuel p n st).2 ≤ st.ctx.outleft) ∧
    selCount (prtextInvLoop o encErr buf limIdx fuel p n st).1.out ≤
      selCount st.out +
        ((prtextInvLoop o encErr buf limIdx fuel p n st).2 - n).toNat := by
  intro fuel
  induction fuel with
  | zero =>
    intro p n st
    refine ⟨?_, ?_, Or.inl ?_, ?_⟩ <;> simp [prtextInvLoop]
  | succ fuel ih =>
    intro p n st
    simp only [prtextInvLoop]
    split
    · rename_i hcond
      set st1 := if ¬ st.ctx.out_quiet then
          prline o encErr buf st p (findEolFrom o.eolbyte buf p limIdx + 1) true
        else st with hst1
      have hfr : st1.ctx.outleft = st.ctx.outleft ∧
          selCount st1.out ≤ selCount st.out + 1 := by
        rw [hst1]
        split
        · have hp := prline_frame o encErr buf st p
            (findEolFrom o.eolbyte buf p limIdx + 1) true
          exact ⟨hp.1, by have := hp.2.2.1; simpa using this⟩
        · exact ⟨rfl, by omega⟩
      obtain ⟨hro, hrn, hrc, hrs⟩ :=
        ih (findEolFrom o.eolbyte buf p limIdx + 1) (n + 1) st1
      obtain ⟨hf1, hf2⟩ := hfr
      have hcn : n < st.ctx.outleft := hcond.2
      refine ⟨by rw [hro, hf1], by omega, ?_, by omega⟩
      rcases hrc with h | h
      · right; omega
      · right; rw [hf1] at h; exact h
    · refine ⟨?_, ?_, Or.inl ?_, ?_⟩ <;> simp

end MTGrep


namespace MTGrep

theorem prtextPending_frame (o : Opts) (encErr : List Byte → Bool)
    (f : List Byte → Bool) (buf : List Byte) (st : St) (begIdx : Nat) :
    (prtextPending o encErr f buf st begIdx).ctx.outleft = st.ctx.outleft ∧
    selCount (prtextPending o encErr f buf st begIdx).out = selCount st.out := by
  rw [prtextPending]
  split
  · exact prpending_frame o encErr f buf st begIdx
  · exact ⟨rfl, rfl⟩

theorem prtextLeading_frame (o : Opts) (encErr : List Byte → Bool)
    (buf : List Byte) (st : St) (begIdx : Nat) :
    (prtextLeading o encErr buf st begIdx).ctx.outleft = st.ctx.outleft ∧
    selCount (prtextLeading o encErr buf st begIdx).out = selCount st.out := by
  rw [prtextLeading]
  split
  · set st2 := if (0 ≤ o.out_before ∨ 0 ≤ o.out_after) ∧ st.used ∧
        some (backLines o.eolbyte buf (st.ctx.lastout.getD 0) o.out_before.toNat begIdx) ≠
          st.ctx.lastout ∧ o.group_separator then
        { st with out := st.out ++ [OutEvent.groupSep] }
      else st with hst2
    have h2 : st2.ctx.outleft = st.ctx.outleft ∧ selCount st2.out = selCount st.out := by
      rw [hst2]
      split
      · exact ⟨rfl, by simp [selCount_append, selCount]⟩
      · exact ⟨rfl, rfl⟩
    have hr := prtextRejLoop_frame o encErr buf begIdx
      (begIdx - backLines o.eolbyte buf (st.ctx.lastout.getD 0) o.out_before.toNat begIdx)
      (backLines o.eolbyte buf (st.ctx.lastout.getD 0) o.out_before.toNat begIdx) st2
    exact ⟨hr.1.trans h2.1, hr.2.trans h2.2⟩
  · exact ⟨rfl, rfl⟩

theorem prtextBody_budget (o : Opts) (encErr : List Byte → Bool)
    (buf : List Byte) (st : St) (begIdx limIdx : Nat)
    (h1 : o.out_invert = false → 1 ≤ st.ctx.outleft) :
    (prtextBody o encErr buf st begIdx limIdx).1.ctx.outleft = st.ctx.outleft ∧
    0 ≤ (prtextBody o encErr buf st begIdx limIdx).2 ∧
    (prtextBody o encErr buf st begIdx limIdx).2 ≤ max 0 st.ctx.outleft ∧
    selCount (prtextBody o encErr buf st begIdx limIdx).1.out ≤
      selCount st.out + ((prtextBody o encErr buf st begIdx limIdx).2).toNat := by
  rw [prtextBody]
  split
  · rename_i hinv
    obtain ⟨ho, hn, hc, hs⟩ :=
      prtextInvLoop_frame o encErr buf limIdx (limIdx - begIdx) begIdx 0 st
    refine ⟨ho, hn, ?_, by omega⟩
    rcases hc with h | h
    · omega
    · omega
  · rename_i hinv
    have h1' := h1 (Bool.of_not_eq_true hinv)
    split
    · have hp := prline_frame o encErr buf st begIdx limIdx true
      have := hp.2.2.1
      refine ⟨hp.1, by omega, by simpa using h1', by simpa using this⟩
    · refine ⟨rfl, by omega, by simpa using h1', ?_⟩
      simp only
      omega

/-- `prtext` never drives `outleft` negative, and the number of selected
lines it emits is covered by the budget it consumes. -/
theorem prtext_budget (o : Opts) (encErr : List Byte → Bool) (f : List Byte → Bool)
    (buf : List Byte) (st : St) (begIdx limIdx : Nat)
    (h0 : 0 ≤ st.ctx.outleft)
    (h1 : o.out_invert = false → 1 ≤ st.ctx.outleft) :
    0 ≤ (prtext o encErr f buf st begIdx limIdx).ctx.outleft ∧
    selCount (prtext o encErr f buf st begIdx limIdx).out +
        ((prtext o encErr f buf st begIdx limIdx).ctx.outleft).toNat ≤
      selCount st.out + (st.ctx.outleft).toNat := by
  rw [prtext]
  simp only
  obtain ⟨hp1, hp2⟩ := prtextPending_frame o encErr f buf st begIdx
  obtain ⟨hl1, hl2⟩ := prtextLeading_frame o encErr buf
    (prtextPending o encErr f buf st begIdx) begIdx
  obtain ⟨hb1, hb2, hb3, hb4⟩ := prtextBody_budget o encErr buf
    (prtextLeading o encErr buf (prtextPending o encErr f buf st begIdx) begIdx)
    begIdx limIdx (by rw [hl1, hp1]; exact h1)
  rw [hl1, hp1] at hb1 hb3
  rw [hl2, hp2] at hb4
  constructor
  · simp only [hb1]
    omega
  · simp only [hb1]
    omega

/-- The inner match loop keeps `outleft` nonnegative and emits at most
as many selected lines as budget it consumes. -/
theorem grepbufLoop_budget (o : Opts) (encErr : List Byte → Bool)
    (f : List Byte → Bool) (buf : List Byte) (limIdx : Nat) :
    ∀ (fuel p : Nat) (st : St),
    0 ≤ st.ctx.outleft → st.ctx.outleft ≠ 0 →
    0 ≤ (grepbufLoop o encErr f buf limIdx fuel p st).ctx.outleft ∧
    selCount (grepbufLoop o encErr f buf limIdx fuel p st).out +
        ((grepbufLoop o encErr f buf limIdx fuel p st).ctx.outleft).toNat ≤
      selCount st.out + (st.ctx.outleft).toNat := by
  intro fuel
  induction fuel with
  | zero =>
    intro p st h0 hne
    simp only [grepbufLoop]
    exact ⟨h0, by omega⟩
  | succ fuel ih =>
    intro p st h0 hne
    simp only [grepbufLoop]
    split
    · rename_i hplim
      cases hex : executeM f o.eolbyte buf p limIdx with
      | none =>
        simp only [hex]
        by_cases hinv : o.out_invert = true
        · simp only [hinv, if_true]
          split
          · exact ⟨h0, by omega⟩
          · split
            · obtain ⟨hb0, hb1⟩ := prtext_budget o encErr f buf st
                p (p + (limIdx - p)) h0 (fun h => by simp [h] at hinv)
              split
              · exact ⟨hb0, hb1⟩
              · rename_i hcont
                have hne2 : (prtext o encErr f buf st
                    p (p + (limIdx - p))).ctx.outleft ≠ 0 :=
                  fun hzero => hcont (Or.inl hzero)
                obtain ⟨hr0, hr1⟩ := ih (p + (limIdx - p) + 0) _ hb0 hne2
                exact ⟨hr0, by omega⟩
            · obtain ⟨hr0, hr1⟩ := ih (p + (limIdx - p) + 0) st h0 hne
              exact ⟨hr0, by omega⟩
        · have hinv2 : o.out_invert = false := Bool.of_not_eq_true hinv
          simp only [hinv2, Bool.false_eq_true, if_false]
          exact ⟨h0, by omega⟩
      | some v =>
        obtain ⟨mo, ms⟩ := v
        simp only [hex]
        by_cases hinv : o.out_invert = true
        · simp [hinv]
          split
          · obtain ⟨hb0, hb1⟩ := prtext_budget o encErr f buf st p (p + mo) h0
              (fun h => by simp [h] at hinv)
            split
            · exact ⟨hb0, hb1⟩
            · rename_i hcont
              have hne2 : (prtext o encErr f buf st p (p + mo)).ctx.outleft ≠ 0 :=
                fun hzero => hcont (Or.inl hzero)
              obtain ⟨hr0, hr1⟩ := ih _ _ hb0 hne2
              exact ⟨hr0, by omega⟩
          · obtain ⟨hr0, hr1⟩ := ih (p + mo + ms) st h0 hne
            exact ⟨hr0, by omega⟩
        · have hinv2 : o.out_invert = false := Bool.of_not_eq_true hinv
          simp [hinv2]
          split
          · exact ⟨h0, by omega⟩
          · obtain ⟨hb0, hb1⟩ := prtext_budget o encErr f buf st (p + mo) (p + mo + ms)
              h0 (fun _ => by omega)
            split
            · exact ⟨hb0, hb1⟩
            · rename_i hcont
              have hne2 : (prtext o encErr f buf st (p + mo) (p + mo + ms)).ctx.outleft ≠ 0 :=
                fun hzero => hcont (Or.inl hzero)
              obtain ⟨hr0, hr1⟩ := ih _ _ hb0 hne2
              exact ⟨hr0, by omega⟩
    · exact ⟨h0, by omega⟩

end MTGrep

namespace MTGrep

theorem chunkFlags_frame (o : Opts) (probe : Bool) (st : St) :
    (chunkFlags o probe st).ctx.outleft = st.ctx.outleft ∧
    (chunkFlags o probe st).ctx.pending = st.ctx.pending ∧
    (chunkFlags o probe st).out = st.out := by
  rw [chunkFlags]
  split
  · exact ⟨rfl, rfl, rfl⟩
  · exact ⟨rfl, rfl, rfl⟩

theorem chunkReset_frame (st : St) :
    (chunkReset st).ctx.outleft = st.ctx.outleft ∧
    (chunkReset st).ctx.pending = st.ctx.pending ∧
    (chunkReset st).out = st.out :=
  ⟨rfl, rfl, rfl⟩

theorem chunkScan_budget (o : Opts) (encErr : List Byte → Bool)
    (f : List Byte → Bool) (buf : List Byte) (st : St)
    (h0 : 0 ≤ st.ctx.outleft) :
    0 ≤ (chunkScan o encErr f buf st).1.ctx.outleft ∧
    selCount (chunkScan o encErr f buf st).1.out +
        ((chunkScan o encErr f buf st).1.ctx.outleft).toNat ≤
      selCount st.out + (st.ctx.outleft).toNat := by
  rw [chunkScan]
  split
  · rename_i hne
    simp only [grepbuf]
    exact grepbufLoop_budget o encErr f buf buf.length (buf.length - 0 + 1) 0 st h0 hne
  · exact ⟨h0, by simp⟩

theorem chunkPend_frame (o : Opts) (encErr : List Byte → Bool)
    (f : List Byte → Bool) (buf : List Byte) (st : St) :
    (chunkPend o encErr f buf st).ctx.outleft = st.ctx.outleft ∧
    selCount (chunkPend o encErr f buf st).out = selCount st.out := by
  rw [chunkPend]
  split
  · exact prpending_frame o encErr f buf st buf.length
  · exact ⟨rfl, rfl⟩

theorem chunkBook_frame (o : Opts) (buf : List Byte) (st : St) :
    (chunkBook o buf st).ctx.outleft = st.ctx.outleft ∧
    (chunkBook o buf st).out = st.out := by
  rw [chunkBook]
  simp only [nlscan]
  constructor
  · split <;> split <;> rfl
  · first | rfl | trivial

/-- The per-file scan loop keeps `outleft` nonnegative and never emits
more selected lines than the budget it consumes. -/
theorem grepFileGo_budget (o : Opts) (encErr : List Byte → Bool)
    (f : List Byte → Bool) :
    ∀ (chunks : List (List Byte)) (st : St) (nlines nfn : Int),
    0 ≤ st.ctx.outleft →
    0 ≤ (grepFileGo o encErr f chunks st nlines nfn).1.ctx.outleft ∧
    selCount (grepFileGo o encErr f chunks st nlines nfn).1.out +
        ((grepFileGo o encErr f chunks st nlines nfn).1.ctx.outleft).toNat ≤
      selCount st.out + (st.ctx.outleft).toNat := by
  intro chunks
  induction chunks with
  | nil =>
    intro st nlines nfn h0
    simp only [grepFileGo]
    exact ⟨h0, by omega⟩
  | cons c cs ih =>
    intro st nlines nfn h0
    obtain ⟨hf1, hf2x, hf3⟩ := chunkFlags_frame o (nulProbe o nfn c) st
    obtain ⟨hr1, hr2x, hr3⟩ := chunkReset_frame (chunkFlags o (nulProbe o nfn c) st)
    have h0b : 0 ≤ (chunkReset (chunkFlags o (nulProbe o nfn c) st)).ctx.outleft := by
      rw [hr1, hf1]; exact h0
    have hsel0 : selCount (chunkReset (chunkFlags o (nulProbe o nfn c) st)).out = selCount st.out := by rw [hr3, hf3]
    obtain ⟨hs0, hs1⟩ := chunkScan_budget o encErr f (scannedBuffer o (chunkNfn (nulProbe o nfn c) nlines nfn) c) (chunkReset (chunkFlags o (nulProbe o nfn c) st)) h0b
    obtain ⟨hp1, hp2⟩ := chunkPend_frame o encErr f (scannedBuffer o (chunkNfn (nulProbe o nfn c) nlines nfn) c) (chunkScan o encErr f (scannedBuffer o (chunkNfn (nulProbe o nfn c) nlines nfn) c) (chunkReset (chunkFlags o (nulProbe o nfn c) st))).1
    obtain ⟨hb1, hb2⟩ := chunkBook_frame o (scannedBuffer o (chunkNfn (nulProbe o nfn c) nlines nfn) c) (chunkPend o encErr f (scannedBuffer o (chunkNfn (nulProbe o nfn c) nlines nfn) c) (chunkScan o encErr f (scannedBuffer o (chunkNfn (nulProbe o nfn c) nlines nfn) c) (chunkReset (chunkFlags o (nulProbe o nfn c) st))).1)
    rw [hr1, hf1, hr3, hf3] at hs1
    simp only [grepFileGo]
    split
    · exact ⟨h0, le_refl _⟩
    · split
      · refine ⟨h0b, ?_⟩
        show selCount (chunkReset (chunkFlags o (nulProbe o nfn c) st)).out + ((chunkReset (chunkFlags o (nulProbe o nfn c) st)).ctx.outleft).toNat ≤ _
        rw [hsel0, hr1, hf1]
      · split
        · refine ⟨?_, ?_⟩
          · show 0 ≤ (chunkPend o encErr f (scannedBuffer o (chunkNfn (nulProbe o nfn c) nlines nfn) c) (chunkScan o encErr f (scannedBuffer o (chunkNfn (nulProbe o nfn c) nlines nfn) c) (chunkReset (chunkFlags o (nulProbe o nfn c) st))).1).ctx.outleft
            rw [hp1]; exact hs0
          · show selCount (chunkPend o encErr f (scannedBuffer o (chunkNfn (nulProbe o nfn c) nlines nfn) c) (chunkScan o encErr f (scannedBuffer o (chunkNfn (nulProbe o nfn c) nlines nfn) c) (chunkReset (chunkFlags o (nulProbe o nfn c) st))).1).out + ((chunkPend o encErr f (scannedBuffer o (chunkNfn (nulProbe o nfn c) nlines nfn) c) (chunkScan o encErr f (scannedBuffer o (chunkNfn (nulProbe o nfn c) nlines nfn) c) (chunkReset (chunkFlags o (nulProbe o nfn c) st))).1).ctx.outleft).toNat ≤ _
            rw [hp1, hp2]
            exact hs1
        · have hq := ih (chunkBook o (scannedBuffer o (chunkNfn (nulProbe o nfn c) nlines nfn) c) (chunkPend o encErr f (scannedBuffer o (chunkNfn (nulProbe o nfn c) nlines nfn) c) (chunkScan o encErr f (scannedBuffer o (chunkNfn (nulProbe o nfn c) nlines nfn) c) (chunkReset (chunkFlags o (nulProbe o nfn c) st))).1))
            (nlines + (chunkScan o encErr f (scannedBuffer o (chunkNfn (nulProbe o nfn c) nlines nfn) c) (chunkReset (chunkFlags o (nulProbe o nfn c) st))).2)
            (chunkNfn (nulProbe o nfn c) nlines nfn)
            (by rw [hb1, hp1]; exact hs0)
          refine ⟨hq.1, ?_⟩
          have hq1 := hq.2
          rw [hb2, hb1, hp2, hp1] at hq1
          omega

end MTGrep

namespace MTGrep

theorem selCount_summary (b : Prop) [Decidable b] (name : String) :
    selCount (if b then [OutEvent.binarySummary name] else []) = 0 := by
  split <;> simp [selCount]

/-- C3: the per-file budget `outleft` starts at `max_count`; the file
emits at most `max_count` selected lines; the scan loop never drives
`outleft` negative; and as soon as `outleft = 0` with `pending = 0`,
scanning terminates — further chunks of the file are never scanned
(the loop's result no longer depends on them). -/
theorem c3_max_count (o : Opts) (encErr : List Byte → Bool) (f : List Byte → Bool)
    (name : String) (used0 : Bool) (chunks : List (List Byte))
    (hm : 0 ≤ o.max_count) :
    (initCtx o name).outleft = o.max_count ∧
    (selCount (grepFile o encErr f used0 name chunks).2.1 : Int) ≤ o.max_count ∧
    (∀ (chunks2 : List (List Byte)) (st : St) (n nfn : Int), 0 ≤ st.ctx.outleft →
      0 ≤ (grepFileGo o encErr f chunks2 st n nfn).1.ctx.outleft) ∧
    (∀ (st : St) (n nfn : Int) (c : List Byte) (cs : List (List Byte)),
      st.ctx.outleft = 0 → st.ctx.pending = 0 →
      grepFileGo o encErr f (c :: cs) st n nfn =
        grepFileGo o encErr f [c] st n nfn) := by
  refine ⟨rfl, ?_, ?_, ?_⟩
  · have hb := grepFileGo_budget o encErr f chunks
      { ctx := initCtx o name, used := used0, out := [] } 0 (-1)
      (by show 0 ≤ o.max_count; exact hm)
    have hb2 : selCount (grepFileGo o encErr f chunks
        { ctx := initCtx o name, used := used0, out := [] } 0 (-1)).1.out +
        ((grepFileGo o encErr f chunks
          { ctx := initCtx o name, used := used0, out := [] } 0 (-1)).1.ctx.outleft).toNat ≤
        0 + o.max_count.toNat := hb.2
    rw [grepFile]
    simp only
    split
    · show (selCount (grepFileGo o encErr f chunks
        { ctx := initCtx o name, used := used0, out := [] } 0 (-1)).1.out : Int) ≤ o.max_count
      omega
    · show (selCount ((grepFileGo o encErr f chunks
          { ctx := initCtx o name, used := used0, out := [] } 0 (-1)).1.out ++
          (if ¬ o.out_quiet ∧
              ((grepFileGo o encErr f chunks
                { ctx := initCtx o name, used := used0, out := [] } 0 (-1)).1.ctx.encoding_error_output ∨
               (0 ≤ (grepFileGo o encErr f chunks
                  { ctx := initCtx o name, used := used0, out := [] } 0 (-1)).2.2.1 ∧
                (grepFileGo o encErr f chunks
                  { ctx := initCtx o name, used := used0, out := [] } 0 (-1)).2.2.1 <
                (grepFileGo o encErr f chunks
                  { ctx := initCtx o name, used := used0, out := [] } 0 (-1)).2.1))
            then [OutEvent.binarySummary name] else [])) : Int) ≤ o.max_count
      rw [selCount_append, selCount_summary]
      omega
  · intro chunks2 st n nfn h
    exact (grepFileGo_budget o encErr f chunks2 st n nfn h).1
  · intro st n nfn c cs hz hp
    have hA1 : (chunkReset (chunkFlags o (nulProbe o nfn c) st)).ctx.outleft = 0 := by
      rw [(chunkReset_frame _).1, (chunkFlags_frame _ _ _).1]; exact hz
    have hA2 : (chunkReset (chunkFlags o (nulProbe o nfn c) st)).ctx.pending = 0 := by
      rw [(chunkReset_frame _).2.1, (chunkFlags_frame _ _ _).2.1]; exact hp
    have hscan : chunkScan o encErr f
        (scannedBuffer o (chunkNfn (nulProbe o nfn c) n nfn) c)
        (chunkReset (chunkFlags o (nulProbe o nfn c) st)) =
        ((chunkReset (chunkFlags o (nulProbe o nfn c) st)), 0) := by
      rw [chunkScan, if_neg]
      simp [hA1]
    have hpend : chunkPend o encErr f
        (scannedBuffer o (chunkNfn (nulProbe o nfn c) n nfn) c)
        (chunkReset (chunkFlags o (nulProbe o nfn c) st)) =
        chunkReset (chunkFlags o (nulProbe o nfn c) st) := by
      rw [chunkPend, if_neg]
      simp [hA2]
    have hdone : chunkDone (chunkReset (chunkFlags o (nulProbe o nfn c) st))
        n (chunkNfn (nulProbe o nfn c) n nfn) = true := by
      simp [chunkDone, hA1, hA2]
    by_cases hwm : chunkEarlyWM o (nulProbe o nfn c) = true
    · simp [grepFileGo, hwm]
    · by_cases hlen : c.length = 0
      · simp [grepFileGo, hwm, hlen]
      · simp only [grepFileGo, if_neg hwm, if_neg hlen]
        rw [hscan]
        simp [hpend, hdone]

end MTGrep

namespace MTGrep

/-- Witness for C3: `-m 1` on a two-match file emits at most one line,
and an exhausted budget stops the scan before later chunks. -/
theorem c3_max_count_witness :
    (0 : Int) ≤ optsM1.max_count ∧
    (initCtx optsM1 "f").outleft = optsM1.max_count ∧
    (selCount (grepFile optsM1 noEncErr matchesX false "f"
        [[120, 10, 120, 10]]).2.1 : Int) ≤ optsM1.max_count ∧
    0 ≤ (grepFileGo optsM1 noEncErr matchesX [[120, 10]] stZero 0 (-1)).1.ctx.outleft ∧
    grepFileGo optsM1 noEncErr matchesX [[10], [99, 10]] stZero 0 (-1) =
      grepFileGo optsM1 noEncErr matchesX [[10]] stZero 0 (-1) := by
  have h := c3_max_count optsM1 noEncErr matchesX "f" false
    [[120, 10, 120, 10]] (by decide)
  exact ⟨by decide, h.1, h.2.1,
    h.2.2.1 [[120, 10]] stZero 0 (-1) (by decide),
    h.2.2.2 stZero 0 (-1) [10] [[99, 10]] (by decide) (by decide)⟩

end MTGrep

namespace MTGrep

/-! ## Characterizing the plain scan (no context, clean input) -/

theorem takeWhile_until_eol (eol : Byte) (content rest : List Byte)
    (hc : eol ∉ content) :
    (content ++ eol :: rest).takeWhile (fun b => b ≠ eol) = content := by
  induction content with
  | nil => simp [List.takeWhile_cons]
  | cons b tl ih =>
    have hb : b ≠ eol := fun h => hc (h ▸ List.mem_cons_self b tl)
    have htl : eol ∉ tl := fun h => hc (List.mem_cons_of_mem b h)
    simp only [List.cons_append, List.takeWhile_cons, hb, ne_eq,
      not_false_eq_true, decide_True, if_true, ih htl]

/-- `memchr` from a line start lands on that line's eol byte. -/
theorem findEolFrom_line (eol : Byte) (preB content rest : List Byte)
    (q : Nat) (hc : eol ∉ content)
    (hq : preB.length + content.length < q) :
    findEolFrom eol (preB ++ (content ++ eol :: rest)) preB.length q =
      preB.length + content.length := by
  rw [findEolFrom, slice_eq_drop_take, List.drop_left]
  obtain ⟨d, hd⟩ : ∃ d, q - preB.length = content.length + (1 + d) :=
    ⟨q - preB.length - content.length - 1, by omega⟩
  have hsplit : (content ++ eol :: rest).take (q - preB.length) =
      content ++ eol :: rest.take d := by
    rw [hd, List.take_add, List.take_left, List.drop_left]
    congr 1
    rw [Nat.add_comm 1 d]
    exact List.take_succ_cons
  rw [hsplit, takeWhile_until_eol eol content _ hc]

/-- `execute` from a line-aligned position over the rest of the buffer
searches exactly the remaining lines. -/
theorem executeM_boundary (f : List Byte → Bool) (eol : Byte) (preB : List Byte)
    (post : List (List Byte)) (hwf : LinesWF eol post) :
    executeM f eol (preB ++ post.flatten) preB.length
        (preB ++ post.flatten).length = execLinesGo f post := by
  rw [executeM, execLines, slice_length_eq_drop, List.drop_left,
    toLines_flatten eol post hwf]

theorem expectedGo_append (o : Opts) (f : List Byte → Bool) (name : String)
    (A B : List (List Byte)) (j off : Nat) :
    expectedGo o f name (A ++ B) j off =
      expectedGo o f name A j off ++
        expectedGo o f name B (j + A.length) (off + A.flatten.length) := by
  induction A generalizing j off with
  | nil => simp [expectedGo]
  | cons l tl ih =>
    simp only [List.cons_append, expectedGo, List.flatten_cons, List.append_eq,
      List.length_cons, List.length_append, List.append_assoc]
    have h1 : j + 1 + tl.length = j + (tl.length + 1) := by omega
    have h2 : off + l.length + tl.flatten.length = off + (l.length + tl.flatten.length) := by
      omega
    rw [ih, h1, h2]

theorem expectedGo_nil_of_nomatch (o : Opts) (f : List Byte → Bool) (name : String)
    (A : List (List Byte)) (j off : Nat)
    (hinv : o.out_invert = false)
    (hA : ∀ x ∈ A, f (lineContent x) = false) :
    expectedGo o f name A j off = [] := by
  induction A generalizing j off with
  | nil => rfl
  | cons l tl ih =>
    have hl := hA l (by simp)
    rw [expectedGo, hl, hinv]
    simp only [ne_eq, not_true_eq_false, if_neg (by simp : ¬ (false : Bool) ≠ false)]
    exact ih _ _ (fun x hx => hA x (by simp [hx]))

theorem expectedGo_length_le (o : Opts) (f : List Byte → Bool) (name : String)
    (A : List (List Byte)) (j off : Nat) :
    (expectedGo o f name A j off).length ≤ A.length := by
  induction A generalizing j off with
  | nil => simp [expectedGo]
  | cons l tl ih =>
    rw [expectedGo]
    simp only [List.length_append, List.length_cons]
    have := ih (j + 1) (off + l.length)
    split <;> simp <;> omega

theorem selContents_expectedGo (o : Opts) (f : List Byte → Bool) (name : String)
    (A : List (List Byte)) (j off : Nat) :
    selContents (expectedGo o f name A j off) =
      A.filter (fun l => decide (f (lineContent l) ≠ o.out_invert)) := by
  induction A generalizing j off with
  | nil => rfl
  | cons l tl ih =>
    rw [expectedGo, List.filter_cons]
    by_cases h : f (lineContent l) ≠ o.out_invert
    · rw [if_pos h, if_pos (by simpa using h)]
      simp only [selContents, List.filterMap_append, List.filterMap_cons,
        lineEvent] at *
      simp only [List.singleton_append, List.filterMap_nil]
      rw [← ih (j + 1) (off + l.length)]
      rfl
    · rw [if_neg h, if_neg (by simpa using h)]
      simp only [List.nil_append]
      exact ih (j + 1) (off + l.length)

end MTGrep

namespace MTGrep

/-- A well-formed line is its content followed by the eol byte. -/
theorem line_decomp (eol : Byte) (l : List Byte)
    (h2 : l.getLast? = some eol) :
    l = l.dropLast ++ [eol] := by
  obtain ⟨ys, rfl⟩ := List.getLast?_eq_some_iff.mp h2
  rw [List.dropLast_concat]

/-- The scan-state invariant of the plain (no-context, clean-input)
characterization: output is not suppressed, no context is pending, and
the bookkeeping counters agree with the scan position `P` (`totalcc = 0`
within the first chunk, `totalnl` counts the eol bytes up to
`lastnl`). -/
def ScanInv (o : Opts) (buf : List Byte) (name : String) (P : Nat) (st : St) : Prop :=
  st.ctx.out_quiet = false ∧ st.ctx.done_on_match = false ∧
  st.ctx.encoding_error_output = false ∧ st.ctx.pending = 0 ∧
  st.ctx.totalcc = 0 ∧ st.ctx.filename = name ∧ st.ctx.lastnl ≤ P ∧
  st.ctx.totalnl = countEol o.eolbyte (buf.take st.ctx.lastnl)

theorem scanInv_mono (o : Opts) (buf : List Byte) (name : String)
    (P Q : Nat) (st : St) (h : ScanInv o buf name P st) (hpq : P ≤ Q) :
    ScanInv o buf name Q st :=
  ⟨h.1, h.2.1, h.2.2.1, h.2.2.2.1, h.2.2.2.2.1, h.2.2.2.2.2.1,
   h.2.2.2.2.2.2.1.trans hpq, h.2.2.2.2.2.2.2⟩

/-- `print_line_head` on a clean line at a line-aligned position:
the head fields are produced and only the `-n` bookkeeping changes. -/
theorem print_line_head_clean (o : Opts) (encErr : List Byte → Bool)
    (preB content sufB : List Byte) (ctx : Ctx)
    (henc : encErr content = false)
    (hl : ctx.lastnl ≤ preB.length)
    (ht : ctx.totalnl =
      countEol o.eolbyte ((preB ++ content ++ o.eolbyte :: sufB).take ctx.lastnl)) :
    print_line_head o encErr (preB ++ content ++ o.eolbyte :: sufB) ctx
        preB.length content.length (preB.length + content.length + 1) =
      ({ ctx with
          lastnl := if o.out_line then preB.length + content.length + 1 else ctx.lastnl
          totalnl := if o.out_line then countEol o.eolbyte preB + 1 else ctx.totalnl },
       some (if o.out_file then some ctx.filename else none,
             if o.out_line then some (countEol o.eolbyte preB + 1) else none,
             if o.out_byte then some (ctx.totalcc + preB.length) else none)) := by
  have hsl : slice (preB ++ content ++ o.eolbyte :: sufB) preB.length
      (preB.length + content.length) = content := slice_mid preB content (o.eolbyte :: sufB)
  have hkey : ctx.totalnl + countEol o.eolbyte
      (slice (preB ++ content ++ o.eolbyte :: sufB) ctx.lastnl preB.length) =
      countEol o.eolbyte preB := by
    rw [ht, ← countEol_append,
      ← take_append_slice (preB ++ content ++ o.eolbyte :: sufB) ctx.lastnl preB.length hl]
    rw [List.append_assoc, List.take_left]
  simp only [print_line_head, hsl, henc]
  rw [if_neg (by split <;> simp)]
  by_cases ho : o.out_line = true
  · rw [if_pos ⟨ho, by omega⟩]
    simp only [nlscan, ho, if_true]
    rw [hkey]
  · have ho2 : o.out_line = false := Bool.of_not_eq_true ho
    rw [if_neg (fun h => ho h.1)]
    simp only [ho2, Bool.false_eq_true, if_false]

/-- `print_line_head` on a line with an encoding error under
`binary_files ≠ text`: the line is suppressed and the three flags
flip. -/
theorem print_line_head_err (o : Opts) (encErr : List Byte → Bool)
    (buf : List Byte) (ctx : Ctx) (b len lim : Nat)
    (hbin : o.binary_files ≠ BinaryFiles.text)
    (herr : encErr (slice buf b (b + len)) = true) :
    print_line_head o encErr buf ctx b len lim =
      ({ ctx with
          encoding_error_output := true, done_on_match := true,
          out_quiet := true }, none) := by
  simp only [print_line_head, if_pos hbin, herr, if_true]

/-- `prline` on a clean full line at a line-aligned position appends
exactly one output record and records `lastout`; under `-n` the line
bookkeeping advances, and nothing else changes. -/
theorem prline_clean (o : Opts) (encErr : List Byte → Bool) (name : String)
    (buf preB content sufB : List Byte) (st : St) (sel : Bool)
    (hbuf : buf = preB ++ content ++ o.eolbyte :: sufB)
    (henc : encErr content = false)
    (hinv : ScanInv o buf name preB.length st) :
    prline o encErr buf st preB.length (preB.length + content.length + 1) sel =
      { st with
        ctx := { st.ctx with
          lastout := some (preB.length + content.length + 1)
          lastnl := if o.out_line then preB.length + content.length + 1 else st.ctx.lastnl
          totalnl := if o.out_line then countEol o.eolbyte preB + 1 else st.ctx.totalnl }
        out := st.out ++ [OutEvent.line
          { fname := if o.out_file then some name else none
            lineno := if o.out_line then some (countEol o.eolbyte preB + 1) else none
            byteoff := if o.out_byte then some preB.length else none
            sel := sel
            content := content ++ [o.eolbyte] }] } := by
  subst hbuf
  obtain ⟨hq, hd, he, hp, hcc, hn, hl, ht⟩ := hinv
  have hlen : preB.length + content.length + 1 - preB.length - 1 = content.length := by
    omega
  have hslfull : slice (preB ++ content ++ o.eolbyte :: sufB) preB.length
      (preB.length + content.length + 1) = content ++ [o.eolbyte] := by
    have h := slice_mid preB (content ++ [o.eolbyte]) sufB
    have ha : preB ++ (content ++ [o.eolbyte]) ++ sufB =
        preB ++ content ++ o.eolbyte :: sufB := by simp
    have hb : preB.length + (content ++ [o.eolbyte]).length =
        preB.length + content.length + 1 := by simp; omega
    rw [ha, hb] at h
    exact h
  simp only [prline, hlen,
    print_line_head_clean o encErr preB content sufB st.ctx henc hl ht,
    hslfull, hcc, hn]
  simp [hcc, hn]

/-- `prline` on a line with an encoding error: nothing is printed,
`lastout` is untouched, and the three suppression flags flip. -/
theorem prline_error (o : Opts) (encErr : List Byte → Bool) (buf : List Byte)
    (st : St) (b lim : Nat) (sel : Bool)
    (hbin : o.binary_files ≠ BinaryFiles.text)
    (herr : encErr (slice buf b (b + (lim - b - 1))) = true) :
    prline o encErr buf st b lim sel =
      { st with ctx := { st.ctx with
          encoding_error_output := true, done_on_match := true,
          out_quiet := true } } := by
  simp only [prline,
    print_line_head_err o encErr buf st.ctx b (lim - b - 1) lim hbin herr]

end MTGrep

namespace MTGrep

/-- Without context options (`out_before = out_after = -1`), `prtext` in
non-inverted mode reduces to a single `prline` on the selected region:
no pending flush, no leading context, no group separator, and the new
`pending` is 0. -/
theorem prtext_plain_nv (o : Opts) (encErr : List Byte → Bool)
    (f : List Byte → Bool) (buf : List Byte) (st : St) (begIdx limIdx : Nat)
    (hinv : o.out_invert = false) (hb : o.out_before = -1) (ha : o.out_after = -1)
    (hq : st.ctx.out_quiet = false) (hp : st.ctx.pending = 0) :
    prtext o encErr f buf st begIdx limIdx =
      { prline o encErr buf st begIdx limIdx true with
        used := true
        ctx := { (prline o encErr buf st begIdx limIdx true).ctx with
          pending := 0
          outleft := (prline o encErr buf st begIdx limIdx true).ctx.outleft - 1 } } := by
  have hm1 : ((-1 : Int)).toNat = 0 := by decide
  have h1 : prtextPending o encErr f buf st begIdx = st := by
    rw [prtextPending, if_neg]
    intro h
    rw [hp] at h
    exact absurd h.2 (by omega)
  have h2 : prtextLeading o encErr buf st begIdx = st := by
    rw [prtextLeading, if_pos (show ¬ st.ctx.out_quiet = true by simp [hq])]
    rw [hb, ha, hm1]
    simp only [backLines]
    rw [if_neg (fun h => absurd h.1 (by decide))]
    rw [Nat.sub_self]
    simp only [prtextRejLoop]
  have h3 : prtextBody o encErr buf st begIdx limIdx =
      (prline o encErr buf st begIdx limIdx true, 1) := by
    rw [prtextBody, if_neg (by simp [hinv])]
    rw [if_pos (show ¬ st.ctx.out_quiet = true by simp [hq])]
  rw [prtext]
  simp only [h1, h2, h3, ha, hm1, ite_self]

/-- Without context options, `prtext` in inverted mode reduces to the
line-by-line emission loop over the region, consuming its count from
the budget; `pending` is reset to 0. -/
theorem prtext_plain_inv (o : Opts) (encErr : List Byte → Bool)
    (f : List Byte → Bool) (buf : List Byte) (st : St) (begIdx limIdx : Nat)
    (hinvT : o.out_invert = true) (hb : o.out_before = -1) (ha : o.out_after = -1)
    (hq : st.ctx.out_quiet = false) (hp : st.ctx.pending = 0) :
    prtext o encErr f buf st begIdx limIdx =
      { (prtextInvLoop o encErr buf limIdx (limIdx - begIdx) begIdx 0 st).1 with
        used := true
        ctx := { (prtextInvLoop o encErr buf limIdx (limIdx - begIdx) begIdx 0 st).1.ctx with
          pending := 0
          outleft :=
            (prtextInvLoop o encErr buf limIdx (limIdx - begIdx) begIdx 0 st).1.ctx.outleft -
              (prtextInvLoop o encErr buf limIdx (limIdx - begIdx) begIdx 0 st).2 } } := by
  have hm1 : ((-1 : Int)).toNat = 0 := by decide
  have h1 : prtextPending o encErr f buf st begIdx = st := by
    rw [prtextPending, if_neg]
    intro h
    rw [hp] at h
    exact absurd h.2 (by omega)
  have h2 : prtextLeading o encErr buf st begIdx = st := by
    rw [prtextLeading, if_pos (show ¬ st.ctx.out_quiet = true by simp [hq])]
    rw [hb, ha, hm1]
    simp only [backLines]
    rw [if_neg (fun h => absurd h.1 (by decide))]
    rw [Nat.sub_self]
    simp only [prtextRejLoop]
  have h3 : prtextBody o encErr buf st begIdx limIdx =
      prtextInvLoop o encErr buf limIdx (limIdx - begIdx) begIdx 0 st := by
    rw [prtextBody, if_pos hinvT]
  rw [prtext]
  simp only [h1, h2, h3, ha, hm1, ite_self]

end MTGrep

namespace MTGrep

/-- The inverted-mode emission loop over a clean well-formed region:
every line of the region is printed (they are exactly the reference
records), the counter rises by the region's line count, the budget is
untouched, and the scan invariant moves to the region's end. -/
theorem prtextInvLoop_clean (o : Opts) (encErr : List Byte → Bool)
    (f : List Byte → Bool) (name : String) :
    ∀ (RS : List (List Byte)) (fuel : Nat) (preB sufB buf : List Byte) (L : Nat)
      (st : St) (n0 : Int),
    buf = preB ++ RS.flatten ++ sufB →
    L = preB.length + RS.flatten.length →
    LinesWF o.eolbyte RS →
    (∀ l ∈ RS, encErr (lineContent l) = false) →
    (∀ l ∈ RS, f (lineContent l) ≠ o.out_invert) →
    ScanInv o buf name preB.length st →
    n0 + RS.length ≤ st.ctx.outleft →
    RS.flatten.length ≤ fuel →
    (prtextInvLoop o encErr buf L fuel preB.length n0 st).1.out =
        st.out ++ expectedGo o f name RS (countEol o.eolbyte preB) preB.length ∧
    (prtextInvLoop o encErr buf L fuel preB.length n0 st).2 = n0 + RS.length ∧
    (prtextInvLoop o encErr buf L fuel preB.length n0 st).1.ctx.outleft =
        st.ctx.outleft ∧
    (prtextInvLoop o encErr buf L fuel preB.length n0 st).1.used = st.used ∧
    ScanInv o buf name L (prtextInvLoop o encErr buf L fuel preB.length n0 st).1 := by
  intro RS
  induction RS with
  | nil =>
    intro fuel preB sufB buf L st n0 hbuf hL hwf henc hall hsi hn hfuel
    have hL0 : L = preB.length := by simpa using hL
    have hbase : prtextInvLoop o encErr buf L fuel preB.length n0 st = (st, n0) := by
      cases fuel with
      | zero => rfl
      | succ fuel =>
        rw [prtextInvLoop, if_neg]
        intro h
        rw [hL0] at h
        exact absurd h.1 (by omega)
    rw [hbase]
    refine ⟨by simp [expectedGo], by simp, rfl, rfl, ?_⟩
    rw [hL0]
    exact hsi
  | cons l tl ih =>
    intro fuel preB sufB buf L st n0 hbuf hL hwf henc hall hsi hn hfuel
    obtain ⟨⟨hl1, hl2, hl3⟩, hwtl⟩ := linesWF_cons o.eolbyte l tl hwf
    have ldecomp := line_decomp o.eolbyte l hl2
    have hll : l.length = l.dropLast.length + 1 := by
      conv_lhs => rw [ldecomp]
      simp
    have hfl : (l :: tl).flatten = l ++ tl.flatten := List.flatten_cons
    have hlpos : 0 < l.length := by omega
    have hflen : (l :: tl).flatten.length = l.length + tl.flatten.length := by
      rw [hfl]
      simp
    have hlen1 : (((l :: tl).length : Nat) : Int) = (tl.length : Int) + 1 := by simp
    cases fuel with
    | zero =>
      exfalso
      rw [hflen] at hfuel
      omega
    | succ fuel =>
      obtain ⟨hq, hd, he, hp, hcc, hfn, hln, ht⟩ := hsi
      have hbuf2 : buf = preB ++ l.dropLast ++ o.eolbyte :: (tl.flatten ++ sufB) := by
        rw [hbuf, hfl]
        conv_lhs => rw [ldecomp]
        simp
      have hfe : findEolFrom o.eolbyte buf preB.length L =
          preB.length + l.dropLast.length := by
        rw [hbuf2, List.append_assoc]
        exact findEolFrom_line o.eolbyte preB l.dropLast (tl.flatten ++ sufB) L hl3
          (by rw [hL, hflen]; omega)
      have hplen : (preB ++ l).length = preB.length + l.dropLast.length + 1 := by
        simp only [List.length_append]
        omega
      have hbuf3 : buf = (preB ++ l) ++ tl.flatten ++ sufB := by
        rw [hbuf, hfl]
        simp
      have htake : buf.take (preB.length + l.dropLast.length + 1) = preB ++ l := by
        rw [hbuf3, List.append_assoc, ← hplen, List.take_left]
      have hcount : countEol o.eolbyte (preB ++ l) = countEol o.eolbyte preB + 1 := by
        rw [countEol_append, countEol_line o.eolbyte l hl1 hl2 hl3]
      have hstep : prtextInvLoop o encErr buf L (fuel + 1) preB.length n0 st =
          prtextInvLoop o encErr buf L fuel ((preB ++ l).length) (n0 + 1) (prline o encErr buf st preB.length (preB.length + l.dropLast.length + 1) true) := by
        rw [prtextInvLoop, if_pos (show preB.length < L ∧ n0 < st.ctx.outleft from
          ⟨by rw [hL, hflen]; omega, by omega⟩)]
        simp only [hfe, hq, Bool.false_eq_true, not_false_eq_true, if_true]
        rw [hplen]
      have hpr := prline_clean o encErr name buf preB l.dropLast
        (tl.flatten ++ sufB) st true hbuf2
        (by simpa [lineContent] using henc l (by simp))
        ⟨hq, hd, he, hp, hcc, hfn, hln, ht⟩
      have hout1 : (prline o encErr buf st preB.length (preB.length + l.dropLast.length + 1) true).out =
          st.out ++ [lineEvent o name (countEol o.eolbyte preB) preB.length l] := by
        rw [hpr]
        simp only [lineEvent]
        rw [← ldecomp]
      have hleft1 : (prline o encErr buf st preB.length (preB.length + l.dropLast.length + 1) true).ctx.outleft = st.ctx.outleft := by rw [hpr]
      have hused1 : (prline o encErr buf st preB.length (preB.length + l.dropLast.length + 1) true).used = st.used := by rw [hpr]
      have hsi1 : ScanInv o buf name (preB ++ l).length (prline o encErr buf st preB.length (preB.length + l.dropLast.length + 1) true) := by
        rw [hpr]
        refine ⟨hq, hd, he, hp, hcc, hfn, ?_, ?_⟩
        · show (if o.out_line = true then preB.length + l.dropLast.length + 1
              else st.ctx.lastnl) ≤ (preB ++ l).length
          rw [hplen]
          split
          · omega
          · omega
        · show (if o.out_line = true then countEol o.eolbyte preB + 1
              else st.ctx.totalnl) =
            countEol o.eolbyte (buf.take (if o.out_line = true then
              preB.length + l.dropLast.length + 1 else st.ctx.lastnl))
          by_cases holine : o.out_line = true
          · rw [if_pos holine, if_pos holine, htake, hcount]
          · rw [if_neg holine, if_neg holine]
            exact ht
      obtain ⟨ihout, ihn, ihleft, ihused, ihsi⟩ := ih fuel (preB ++ l) sufB buf L (prline o encErr buf st preB.length (preB.length + l.dropLast.length + 1) true)
        (n0 + 1) hbuf3 (by rw [hL, hflen, hplen]; omega)
        hwtl (fun x hx => henc x (by simp [hx])) (fun x hx => hall x (by simp [hx]))
        hsi1 (by rw [hleft1]; omega) (by rw [hflen] at hfuel; omega)
      rw [hstep]
      refine ⟨?_, ?_, ?_, ?_, ?_⟩
      · rw [ihout, hout1, hcount]
        simp only [expectedGo, List.length_append]
        rw [if_pos (hall l (by simp))]
        simp [List.append_assoc]
      · rw [ihn]
        omega
      · rw [ihleft, hleft1]
      · rw [ihused, hused1]
      · exact ihsi

end MTGrep

namespace MTGrep

/-- When every line of the block is emitted, the reference output has
one record per line. -/
theorem expectedGo_length_all (o : Opts) (f : List Byte → Bool) (name : String)
    (A : List (List Byte)) (j off : Nat)
    (hall : ∀ l ∈ A, f (lineContent l) ≠ o.out_invert) :
    (expectedGo o f name A j off).length = A.length := by
  induction A generalizing j off with
  | nil => rfl
  | cons l tl ih =>
    rw [expectedGo, if_pos (hall l (by simp))]
    simp only [List.singleton_append, List.length_cons]
    rw [ih _ _ (fun x hx => hall x (by simp [hx]))]

/-- Reference output around the first matching line, non-inverted mode:
the non-matching block emits nothing and the matching line is
printed. -/
theorem expectedGo_split_nv (o : Opts) (f : List Byte → Bool) (name : String)
    (A B : List (List Byte)) (l2 : List Byte) (j off : Nat)
    (hinv : o.out_invert = false)
    (hA : ∀ x ∈ A, f (lineContent x) = false)
    (hl2 : f (lineContent l2) = true) :
    expectedGo o f name (A ++ l2 :: B) j off =
      lineEvent o name (j + A.length) (off + A.flatten.length) l2 ::
        expectedGo o f name B (j + A.length + 1) (off + A.flatten.length + l2.length) := by
  rw [expectedGo_append, expectedGo_nil_of_nomatch o f name A j off hinv hA,
    List.nil_append, expectedGo, if_pos (by rw [hl2, hinv]; simp)]
  rfl

/-- Reference output around the first matching line, inverted mode: the
matching line is dropped. -/
theorem expectedGo_split_inv (o : Opts) (f : List Byte → Bool) (name : String)
    (A B : List (List Byte)) (l2 : List Byte) (j off : Nat)
    (hinv : o.out_invert = true)
    (hl2 : f (lineContent l2) = true) :
    expectedGo o f name (A ++ l2 :: B) j off =
      expectedGo o f name A j off ++
        expectedGo o f name B (j + A.length + 1) (off + A.flatten.length + l2.length) := by
  rw [expectedGo_append, expectedGo, if_neg (by rw [hl2, hinv]; simp),
    List.nil_append]

/-- The inner match loop at the buffer limit is the identity. -/
theorem grepbufLoop_at_lim (o : Opts) (encErr : List Byte → Bool)
    (f : List Byte → Bool) (buf : List Byte) (L : Nat) (fuel : Nat) (st : St) :
    grepbufLoop o encErr f buf L fuel L st = st := by
  cases fuel with
  | zero => rfl
  | succ fuel =>
    rw [grepbufLoop, if_neg (by omega)]

end MTGrep

namespace MTGrep

/-- The inner match loop of `grepbuf` in plain mode (no context options)
on a clean line-aligned buffer region: the output grows by exactly the
reference records of the remaining lines, the budget drops by their
count, and the scan invariant moves to the buffer's end. -/
theorem grepbufLoop_plain (o : Opts) (encErr : List Byte → Bool)
    (f : List Byte → Bool) (name : String)
    (hb : o.out_before = -1) (ha : o.out_after = -1) :
    ∀ (fuel : Nat) (pre post : List (List Byte)) (buf : List Byte) (L : Nat) (st : St),
    buf = pre.flatten ++ post.flatten →
    L = buf.length →
    LinesWF o.eolbyte pre →
    LinesWF o.eolbyte post →
    (∀ l ∈ post, encErr (lineContent l) = false) →
    ScanInv o buf name pre.flatten.length st →
    (post.length : Int) < st.ctx.outleft →
    post.length < fuel →
    (grepbufLoop o encErr f buf L fuel pre.flatten.length st).out =
        st.out ++ expectedGo o f name post pre.length pre.flatten.length ∧
    (grepbufLoop o encErr f buf L fuel pre.flatten.length st).ctx.outleft =
        st.ctx.outleft -
          ((expectedGo o f name post pre.length pre.flatten.length).length : Int) ∧
    ScanInv o buf name L (grepbufLoop o encErr f buf L fuel pre.flatten.length st) := by
  intro fuel
  induction fuel with
  | zero =>
    intro pre post buf L st hbuf hL hwfpre hwfpost henc hsi hbud hfl
    omega
  | succ fuel ih =>
    intro pre post buf L st hbuf hL hwfpre hwfpost henc hsi hbud hfl
    have hLlen : L = pre.flatten.length + post.flatten.length := by
      rw [hL, hbuf]
      simp
    have hcpre : countEol o.eolbyte pre.flatten = pre.length :=
      countEol_flatten o.eolbyte pre hwfpre
    obtain ⟨hq, hd, he, hp, hcc, hfn, hln, ht⟩ := hsi
    by_cases hpost : post = []
    · subst hpost
      have hL0 : L = pre.flatten.length := by simpa using hLlen
      have hid : grepbufLoop o encErr f buf L (fuel + 1) pre.flatten.length st = st := by
        rw [hL0]
        exact grepbufLoop_at_lim o encErr f buf pre.flatten.length (fuel + 1) st
      rw [hid]
      refine ⟨by simp [expectedGo], by simp [expectedGo], ?_⟩
      rw [hL0]
      exact ⟨hq, hd, he, hp, hcc, hfn, hln, ht⟩
    · have hpostpos : 0 < post.length := List.length_pos.mpr hpost
      have hffl := length_le_length_flatten o.eolbyte post hwfpost
      have hflpos : 0 < post.flatten.length := by omega
      have hexe : executeM f o.eolbyte buf pre.flatten.length L = execLinesGo f post := by
        rw [hL, hbuf]
        exact executeM_boundary f o.eolbyte pre.flatten post hwfpost
      cases hex : execLinesGo f post with
      | none =>
        have hnm := (execLinesGo_eq_none f post).mp hex
        have hex2 : executeM f o.eolbyte buf pre.flatten.length L = none := hexe.trans hex
        by_cases hoi : o.out_invert = true
        · -- inverted mode, no match: the whole remainder is emitted
          have hall : ∀ l ∈ post, f (lineContent l) ≠ o.out_invert := by
            intro x hx
            rw [hnm x hx, hoi]
            simp
          obtain ⟨iout, inn, ileft, iused, isi⟩ :=
            prtextInvLoop_clean o encErr f name post (L - pre.flatten.length)
              pre.flatten [] buf L st 0 (by rw [hbuf]; simp) hLlen hwfpost henc hall
              ⟨hq, hd, he, hp, hcc, hfn, hln, ht⟩ (by omega) (by omega)
          have hstop : ¬ (({ (prtextInvLoop o encErr buf L (L - pre.flatten.length) pre.flatten.length 0 st).1 with used := true, ctx := { (prtextInvLoop o encErr buf L (L - pre.flatten.length) pre.flatten.length 0 st).1.ctx with pending := 0, outleft := (prtextInvLoop o encErr buf L (L - pre.flatten.length) pre.flatten.length 0 st).1.ctx.outleft - (prtextInvLoop o encErr buf L (L - pre.flatten.length) pre.flatten.length 0 st).2 } }).ctx.outleft = 0 ∨
              ({ (prtextInvLoop o encErr buf L (L - pre.flatten.length) pre.flatten.length 0 st).1 with used := true, ctx := { (prtextInvLoop o encErr buf L (L - pre.flatten.length) pre.flatten.length 0 st).1.ctx with pending := 0, outleft := (prtextInvLoop o encErr buf L (L - pre.flatten.length) pre.flatten.length 0 st).1.ctx.outleft - (prtextInvLoop o encErr buf L (L - pre.flatten.length) pre.flatten.length 0 st).2 } }).ctx.done_on_match = true) := by
            intro h
            rcases h with h | h
            · have h2 : (prtextInvLoop o encErr buf L (L - pre.flatten.length) pre.flatten.length 0 st).1.ctx.outleft - (prtextInvLoop o encErr buf L (L - pre.flatten.length) pre.flatten.length 0 st).2 = 0 := h
              rw [ileft, inn] at h2
              omega
            · have h2 : (prtextInvLoop o encErr buf L (L - pre.flatten.length) pre.flatten.length 0 st).1.ctx.done_on_match = true := h
              rw [isi.2.1] at h2
              exact absurd h2 (by simp)
          have hred : grepbufLoop o encErr f buf L (fuel + 1) pre.flatten.length st =
              { (prtextInvLoop o encErr buf L (L - pre.flatten.length) pre.flatten.length 0 st).1 with used := true, ctx := { (prtextInvLoop o encErr buf L (L - pre.flatten.length) pre.flatten.length 0 st).1.ctx with pending := 0, outleft := (prtextInvLoop o encErr buf L (L - pre.flatten.length) pre.flatten.length 0 st).1.ctx.outleft - (prtextInvLoop o encErr buf L (L - pre.flatten.length) pre.flatten.length 0 st).2 } } := by
            simp only [grepbufLoop]
            rw [if_pos (show pre.flatten.length < L by omega)]
            simp only [hex2, hoi, if_true]
            rw [if_neg (fun h => h.1 trivial)]
            rw [if_pos (Or.inr (show pre.flatten.length <
              pre.flatten.length + (L - pre.flatten.length) by omega))]
            have hbL : pre.flatten.length + (L - pre.flatten.length) = L := by omega
            rw [hbL]
            rw [prtext_plain_inv o encErr f buf st pre.flatten.length L hoi hb ha hq hp]
            rw [if_neg hstop]
            simp only [Nat.add_zero]
            exact grepbufLoop_at_lim o encErr f buf L fuel { (prtextInvLoop o encErr buf L (L - pre.flatten.length) pre.flatten.length 0 st).1 with used := true, ctx := { (prtextInvLoop o encErr buf L (L - pre.flatten.length) pre.flatten.length 0 st).1.ctx with pending := 0, outleft := (prtextInvLoop o encErr buf L (L - pre.flatten.length) pre.flatten.length 0 st).1.ctx.outleft - (prtextInvLoop o encErr buf L (L - pre.flatten.length) pre.flatten.length 0 st).2 } }
          rw [hred]
          rw [hcpre] at iout
          have hlenall := expectedGo_length_all o f name post pre.length
            pre.flatten.length hall
          refine ⟨?_, ?_, ?_⟩
          · show (prtextInvLoop o encErr buf L (L - pre.flatten.length) pre.flatten.length 0 st).1.out = _
            rw [iout]
          · show (prtextInvLoop o encErr buf L (L - pre.flatten.length) pre.flatten.length 0 st).1.ctx.outleft - (prtextInvLoop o encErr buf L (L - pre.flatten.length) pre.flatten.length 0 st).2 = _
            rw [ileft, inn, hlenall]
            omega
          · refine ⟨isi.1, isi.2.1, isi.2.2.1, rfl, isi.2.2.2.2.1, isi.2.2.2.2.2.1,
              isi.2.2.2.2.2.2.1, isi.2.2.2.2.2.2.2⟩
        · -- non-inverted mode, no match: nothing is emitted
          have hoi2 : o.out_invert = false := Bool.of_not_eq_true hoi
          have hnil : expectedGo o f name post pre.length pre.flatten.length = [] :=
            expectedGo_nil_of_nomatch o f name post pre.length pre.flatten.length hoi2 hnm
          have hred : grepbufLoop o encErr f buf L (fuel + 1) pre.flatten.length st =
              st := by
            simp only [grepbufLoop]
            rw [if_pos (show pre.flatten.length < L by omega)]
            simp only [hex2, hoi2, Bool.false_eq_true, if_false]
          rw [hred, hnil]
          refine ⟨by simp, by simp, ?_⟩
          refine ⟨hq, hd, he, hp, hcc, hfn, by omega, ht⟩
      | some v =>
        obtain ⟨mo, ms⟩ := v
        obtain ⟨A, l2, B, hsplit, hA, hl2, hmo, hms⟩ :=
          execLinesGo_eq_some f post mo ms hex
        subst hsplit
        subst hmo
        subst hms
        have hex2 : executeM f o.eolbyte buf pre.flatten.length L =
            some (A.flatten.length, l2.length) := hexe.trans hex
        obtain ⟨hwfA, hwfl2B⟩ := linesWF_append_elim o.eolbyte A (l2 :: B) hwfpost
        obtain ⟨⟨hl2ne, hl2last, hl2nin⟩, hwfB⟩ := linesWF_cons o.eolbyte l2 B hwfl2B
        have hl2d := line_decomp o.eolbyte l2 hl2last
        have hll2 : l2.length = l2.dropLast.length + 1 := by
          conv_lhs => rw [hl2d]
          simp
        have hl2pos : 0 < l2.length := by omega
        have postlen : (A ++ l2 :: B).length = A.length + B.length + 1 := by
          simp only [List.length_append, List.length_cons]
          omega
        have flpost : (A ++ l2 :: B).flatten.length =
            A.flatten.length + l2.length + B.flatten.length := by
          simp only [List.flatten_append, List.flatten_cons, List.length_append]
          omega
        have e3 : (pre ++ A ++ [l2]).flatten.length =
            pre.flatten.length + A.flatten.length + l2.length := by
          simp only [List.flatten_append, List.flatten_cons, List.flatten_nil,
            List.append_nil, List.length_append]
        have e4 : (pre ++ A ++ [l2]).length = pre.length + A.length + 1 := by
          simp only [List.length_append, List.length_cons, List.length_nil]
        have hcA : countEol o.eolbyte A.flatten = A.length :=
          countEol_flatten o.eolbyte A hwfA
        have hcPA : countEol o.eolbyte (pre.flatten ++ A.flatten) =
            pre.length + A.length := by
          rw [countEol_append, hcpre, hcA]
        have hbufIH : buf = (pre ++ A ++ [l2]).flatten ++ B.flatten := by
          rw [hbuf]
          simp
        have hwfpre3 : LinesWF o.eolbyte (pre ++ A ++ [l2]) := by
          refine linesWF_append o.eolbyte (pre ++ A) [l2]
            (linesWF_append o.eolbyte pre A hwfpre hwfA) ?_
          intro x hx
          rw [List.mem_singleton] at hx
          subst hx
          exact ⟨hl2ne, hl2last, hl2nin⟩
        have hencB : ∀ l ∈ B, encErr (lineContent l) = false := by
          intro x hx
          exact henc x (by simp [hx])
        have hbufe : buf = ((pre.flatten ++ A.flatten) ++ l2) ++ B.flatten := by
          rw [hbuf]
          simp
        have e5 : ((pre.flatten ++ A.flatten) ++ l2).length =
            pre.flatten.length + A.flatten.length + l2.length := by
          simp only [List.length_append]
        have htake2 : buf.take (pre.flatten.length + A.flatten.length + l2.length) =
            (pre.flatten ++ A.flatten) ++ l2 := by
          rw [hbufe, ← e5, List.take_left]
        have hcount2 : countEol o.eolbyte ((pre.flatten ++ A.flatten) ++ l2) =
            countEol o.eolbyte (pre.flatten ++ A.flatten) + 1 := by
          rw [countEol_append, countEol_line o.eolbyte l2 hl2ne hl2last hl2nin]
        by_cases hoi : o.out_invert = true
        · -- inverted mode: the non-matching block is emitted, the match skipped
          have hallA : ∀ x ∈ A, f (lineContent x) ≠ o.out_invert := by
            intro x hx
            rw [hA x hx, hoi]
            simp
          have hsplitE := expectedGo_split_inv o f name A B l2 pre.length
            pre.flatten.length hoi hl2
          have hlenA := expectedGo_length_all o f name A pre.length
            pre.flatten.length hallA
          by_cases hA0 : A = []
          · -- empty block: the loop silently skips the matching line
            have hafl0 : A.flatten.length = 0 := by rw [hA0]; rfl
            have hred : grepbufLoop o encErr f buf L (fuel + 1) pre.flatten.length st =
                grepbufLoop o encErr f buf L fuel
                  (pre.flatten.length + A.flatten.length + l2.length) st := by
              simp only [grepbufLoop]
              rw [if_pos (show pre.flatten.length < L by omega)]
              simp only [hex2]
              rw [if_neg (fun h => h.1 hoi)]
              rw [if_neg]
              intro h
              rcases h with h | h
              · exact h hoi
              · omega
            obtain ⟨Iout, Ileft, Isi⟩ := ih (pre ++ A ++ [l2]) B buf L st hbufIH hL
              hwfpre3 hwfB hencB
              (by rw [e3]
                  exact ⟨hq, hd, he, hp, hcc, hfn, by omega, ht⟩)
              (by omega) (by omega)
            rw [e3] at Iout Ileft Isi
            rw [e4] at Iout Ileft
            rw [hred, hsplitE]
            have hexpA0 : expectedGo o f name A pre.length pre.flatten.length = [] := by
              rw [hA0]
              rfl
            refine ⟨?_, ?_, ?_⟩
            · rw [Iout, hexpA0]
              simp
            · rw [Ileft, hexpA0]
              simp
            · exact Isi
          · -- nonempty block: `prtext` emits it, then the loop continues
            have hA0pos : 0 < A.length := List.length_pos.mpr hA0
            have hAfl := length_le_length_flatten o.eolbyte A hwfA
            have hAflpos : 0 < A.flatten.length := by omega
            have hbufA : buf = pre.flatten ++ A.flatten ++ (l2 ++ B.flatten) := by
              rw [hbuf]
              simp
            have hencA : ∀ x ∈ A, encErr (lineContent x) = false := by
              intro x hx
              exact henc x (by simp [hx])
            obtain ⟨aout, ann, aleft, aused, aisi⟩ :=
              prtextInvLoop_clean o encErr f name A A.flatten.length pre.flatten
                (l2 ++ B.flatten) buf (pre.flatten.length + A.flatten.length) st 0
                hbufA rfl hwfA hencA hallA ⟨hq, hd, he, hp, hcc, hfn, hln, ht⟩
                (by omega) (le_refl _)
            have hstopA : ¬ (({ (prtextInvLoop o encErr buf (pre.flatten.length + A.flatten.length) A.flatten.length pre.flatten.length 0 st).1 with used := true, ctx := { (prtextInvLoop o encErr buf (pre.flatten.length + A.flatten.length) A.flatten.length pre.flatten.length 0 st).1.ctx with pending := 0, outleft := (prtextInvLoop o encErr buf (pre.flatten.length + A.flatten.length) A.flatten.length pre.flatten.length 0 st).1.ctx.outleft - (prtextInvLoop o encErr buf (pre.flatten.length + A.flatten.length) A.flatten.length pre.flatten.length 0 st).2 } }).ctx.outleft = 0 ∨
                ({ (prtextInvLoop o encErr buf (pre.flatten.length + A.flatten.length) A.flatten.length pre.flatten.length 0 st).1 with used := true, ctx := { (prtextInvLoop o encErr buf (pre.flatten.length + A.flatten.length) A.flatten.length pre.flatten.length 0 st).1.ctx with pending := 0, outleft := (prtextInvLoop o encErr buf (pre.flatten.length + A.flatten.length) A.flatten.length pre.flatten.length 0 st).1.ctx.outleft - (prtextInvLoop o encErr buf (pre.flatten.length + A.flatten.length) A.flatten.length pre.flatten.length 0 st).2 } }).ctx.done_on_match = true) := by
              intro h
              rcases h with h | h
              · have h2 : (prtextInvLoop o encErr buf (pre.flatten.length + A.flatten.length) A.flatten.length pre.flatten.length 0 st).1.ctx.outleft - (prtextInvLoop o encErr buf (pre.flatten.length + A.flatten.length) A.flatten.length pre.flatten.length 0 st).2 = 0 := h
                rw [aleft, ann] at h2
                omega
              · have h2 : (prtextInvLoop o encErr buf (pre.flatten.length + A.flatten.length) A.flatten.length pre.flatten.length 0 st).1.ctx.done_on_match = true := h
                rw [aisi.2.1] at h2
                exact absurd h2 (by simp)
            have hred : grepbufLoop o encErr f buf L (fuel + 1) pre.flatten.length st =
                grepbufLoop o encErr f buf L fuel
                  (pre.flatten.length + A.flatten.length + l2.length) ({ (prtextInvLoop o encErr buf (pre.flatten.length + A.flatten.length) A.flatten.length pre.flatten.length 0 st).1 with used := true, ctx := { (prtextInvLoop o encErr buf (pre.flatten.length + A.flatten.length) A.flatten.length pre.flatten.length 0 st).1.ctx with pending := 0, outleft := (prtextInvLoop o encErr buf (pre.flatten.length + A.flatten.length) A.flatten.length pre.flatten.length 0 st).1.ctx.outleft - (prtextInvLoop o encErr buf (pre.flatten.length + A.flatten.length) A.flatten.length pre.flatten.length 0 st).2 } }) := by
              simp only [grepbufLoop]
              rw [if_pos (show pre.flatten.length < L by omega)]
              simp only [hex2]
              rw [if_neg (fun h => h.1 hoi)]
              rw [if_pos (Or.inr (show pre.flatten.length <
                pre.flatten.length + A.flatten.length by omega))]
              simp only [hoi, if_true]
              rw [prtext_plain_inv o encErr f buf st pre.flatten.length
                (pre.flatten.length + A.flatten.length) hoi hb ha hq hp]
              have hsub : pre.flatten.length + A.flatten.length - pre.flatten.length =
                  A.flatten.length := by omega
              rw [hsub]
              rw [if_neg hstopA]
            have hRAleft : ({ (prtextInvLoop o encErr buf (pre.flatten.length + A.flatten.length) A.flatten.length pre.flatten.length 0 st).1 with used := true, ctx := { (prtextInvLoop o encErr buf (pre.flatten.length + A.flatten.length) A.flatten.length pre.flatten.length 0 st).1.ctx with pending := 0, outleft := (prtextInvLoop o encErr buf (pre.flatten.length + A.flatten.length) A.flatten.length pre.flatten.length 0 st).1.ctx.outleft - (prtextInvLoop o encErr buf (pre.flatten.length + A.flatten.length) A.flatten.length pre.flatten.length 0 st).2 } }).ctx.outleft = st.ctx.outleft - (A.length : Int) := by
              show (prtextInvLoop o encErr buf (pre.flatten.length + A.flatten.length) A.flatten.length pre.flatten.length 0 st).1.ctx.outleft - (prtextInvLoop o encErr buf (pre.flatten.length + A.flatten.length) A.flatten.length pre.flatten.length 0 st).2 = _
              rw [aleft, ann]
              omega
            obtain ⟨Iout, Ileft, Isi⟩ := ih (pre ++ A ++ [l2]) B buf L ({ (prtextInvLoop o encErr buf (pre.flatten.length + A.flatten.length) A.flatten.length pre.flatten.length 0 st).1 with used := true, ctx := { (prtextInvLoop o encErr buf (pre.flatten.length + A.flatten.length) A.flatten.length pre.flatten.length 0 st).1.ctx with pending := 0, outleft := (prtextInvLoop o encErr buf (pre.flatten.length + A.flatten.length) A.flatten.length pre.flatten.length 0 st).1.ctx.outleft - (prtextInvLoop o encErr buf (pre.flatten.length + A.flatten.length) A.flatten.length pre.flatten.length 0 st).2 } }) hbufIH hL
              hwfpre3 hwfB hencB
              (by rw [e3]
                  refine ⟨aisi.1, aisi.2.1, aisi.2.2.1, rfl, aisi.2.2.2.2.1,
                    aisi.2.2.2.2.2.1, ?_, aisi.2.2.2.2.2.2.2⟩
                  show (prtextInvLoop o encErr buf (pre.flatten.length + A.flatten.length) A.flatten.length pre.flatten.length 0 st).1.ctx.lastnl ≤
                    pre.flatten.length + A.flatten.length + l2.length
                  have := aisi.2.2.2.2.2.2.1
                  omega)
              (by rw [hRAleft]; omega) (by omega)
            rw [e3] at Iout Ileft Isi
            rw [e4] at Iout Ileft
            rw [hred, hsplitE]
            have hRAout : ({ (prtextInvLoop o encErr buf (pre.flatten.length + A.flatten.length) A.flatten.length pre.flatten.length 0 st).1 with used := true, ctx := { (prtextInvLoop o encErr buf (pre.flatten.length + A.flatten.length) A.flatten.length pre.flatten.length 0 st).1.ctx with pending := 0, outleft := (prtextInvLoop o encErr buf (pre.flatten.length + A.flatten.length) A.flatten.length pre.flatten.length 0 st).1.ctx.outleft - (prtextInvLoop o encErr buf (pre.flatten.length + A.flatten.length) A.flatten.length pre.flatten.length 0 st).2 } }).out = st.out ++ expectedGo o f name A pre.length
                pre.flatten.length := by
              show (prtextInvLoop o encErr buf (pre.flatten.length + A.flatten.length) A.flatten.length pre.flatten.length 0 st).1.out = _
              rw [aout, hcpre]
            refine ⟨?_, ?_, ?_⟩
            · rw [Iout, hRAout]
              simp [List.append_assoc]
            · rw [Ileft, hRAleft]
              simp only [List.length_append, hlenA]
              push_cast
              omega
            · exact Isi
        · -- non-inverted mode: `prtext` prints the matching line
          have hoi2 : o.out_invert = false := Bool.of_not_eq_true hoi
          have hsplitE := expectedGo_split_nv o f name A B l2 pre.length
            pre.flatten.length hoi2 hA hl2
          have hbufd : buf = (pre.flatten ++ A.flatten) ++ l2.dropLast ++
              o.eolbyte :: B.flatten := by
            rw [hbuf]
            conv_lhs => rw [hl2d]
            simp
          have e1 : (pre.flatten ++ A.flatten).length =
              pre.flatten.length + A.flatten.length := List.length_append _ _
          have hprc := prline_clean o encErr name buf (pre.flatten ++ A.flatten)
            l2.dropLast B.flatten st true hbufd
            (by simpa [lineContent] using henc l2 (by simp))
            (by rw [e1]
                exact ⟨hq, hd, he, hp, hcc, hfn, by omega, ht⟩)
          rw [e1] at hprc
          have e2 : pre.flatten.length + A.flatten.length + l2.dropLast.length + 1 =
              pre.flatten.length + A.flatten.length + l2.length := by omega
          rw [e2] at hprc
          have hPRleft : ((prline o encErr buf st (pre.flatten.length + A.flatten.length) (pre.flatten.length + A.flatten.length + l2.length) true)).ctx.outleft = st.ctx.outleft := by
            rw [hprc]
          have hPRdone : ((prline o encErr buf st (pre.flatten.length + A.flatten.length) (pre.flatten.length + A.flatten.length + l2.length) true)).ctx.done_on_match = false := by
            rw [hprc]
            exact hd
          have hstop : ¬ (({ (prline o encErr buf st (pre.flatten.length + A.flatten.length) (pre.flatten.length + A.flatten.length + l2.length) true) with used := true, ctx := { (prline o encErr buf st (pre.flatten.length + A.flatten.length) (pre.flatten.length + A.flatten.length + l2.length) true).ctx with pending := 0, outleft := (prline o encErr buf st (pre.flatten.length + A.flatten.length) (pre.flatten.length + A.flatten.length + l2.length) true).ctx.outleft - 1 } }).ctx.outleft = 0 ∨
              ({ (prline o encErr buf st (pre.flatten.length + A.flatten.length) (pre.flatten.length + A.flatten.length + l2.length) true) with used := true, ctx := { (prline o encErr buf st (pre.flatten.length + A.flatten.length) (pre.flatten.length + A.flatten.length + l2.length) true).ctx with pending := 0, outleft := (prline o encErr buf st (pre.flatten.length + A.flatten.length) (pre.flatten.length + A.flatten.length + l2.length) true).ctx.outleft - 1 } }).ctx.done_on_match = true) := by
            intro h
            rcases h with h | h
            · have h2 : ((prline o encErr buf st (pre.flatten.length + A.flatten.length) (pre.flatten.length + A.flatten.length + l2.length) true)).ctx.outleft - 1 = 0 := h
              rw [hPRleft] at h2
              omega
            · have h2 : ((prline o encErr buf st (pre.flatten.length + A.flatten.length) (pre.flatten.length + A.flatten.length + l2.length) true)).ctx.done_on_match = true := h
              rw [hPRdone] at h2
              exact absurd h2 (by simp)
          have hred : grepbufLoop o encErr f buf L (fuel + 1) pre.flatten.length st =
              grepbufLoop o encErr f buf L fuel
                (pre.flatten.length + A.flatten.length + l2.length) ({ (prline o encErr buf st (pre.flatten.length + A.flatten.length) (pre.flatten.length + A.flatten.length + l2.length) true) with used := true, ctx := { (prline o encErr buf st (pre.flatten.length + A.flatten.length) (pre.flatten.length + A.flatten.length + l2.length) true).ctx with pending := 0, outleft := (prline o encErr buf st (pre.flatten.length + A.flatten.length) (pre.flatten.length + A.flatten.length + l2.length) true).ctx.outleft - 1 } }) := by
            simp only [grepbufLoop]
            rw [if_pos (show pre.flatten.length < L by omega)]
            simp only [hex2]
            rw [if_neg (fun h => by omega)]
            rw [if_pos (Or.inl (by simp [hoi2]))]
            simp only [hoi2, Bool.false_eq_true, if_false]
            rw [prtext_plain_nv o encErr f buf st
              (pre.flatten.length + A.flatten.length)
              (pre.flatten.length + A.flatten.length + l2.length) hoi2 hb ha hq hp]
            rw [if_neg hstop]
          have hsiR1 : ScanInv o buf name
              (pre.flatten.length + A.flatten.length + l2.length) ({ (prline o encErr buf st (pre.flatten.length + A.flatten.length) (pre.flatten.length + A.flatten.length + l2.length) true) with used := true, ctx := { (prline o encErr buf st (pre.flatten.length + A.flatten.length) (pre.flatten.length + A.flatten.length + l2.length) true).ctx with pending := 0, outleft := (prline o encErr buf st (pre.flatten.length + A.flatten.length) (pre.flatten.length + A.flatten.length + l2.length) true).ctx.outleft - 1 } }) := by
            refine ⟨?_, ?_, ?_, rfl, ?_, ?_, ?_, ?_⟩
            · show ((prline o encErr buf st (pre.flatten.length + A.flatten.length) (pre.flatten.length + A.flatten.length + l2.length) true)).ctx.out_quiet = false
              rw [hprc]
              exact hq
            · show ((prline o encErr buf st (pre.flatten.length + A.flatten.length) (pre.flatten.length + A.flatten.length + l2.length) true)).ctx.done_on_match = false
              rw [hprc]
              exact hd
            · show ((prline o encErr buf st (pre.flatten.length + A.flatten.length) (pre.flatten.length + A.flatten.length + l2.length) true)).ctx.encoding_error_output = false
              rw [hprc]
              exact he
            · show ((prline o encErr buf st (pre.flatten.length + A.flatten.length) (pre.flatten.length + A.flatten.length + l2.length) true)).ctx.totalcc = 0
              rw [hprc]
              exact hcc
            · show ((prline o encErr buf st (pre.flatten.length + A.flatten.length) (pre.flatten.length + A.flatten.length + l2.length) true)).ctx.filename = name
              rw [hprc]
              exact hfn
            · show ((prline o encErr buf st (pre.flatten.length + A.flatten.length) (pre.flatten.length + A.flatten.length + l2.length) true)).ctx.lastnl ≤
                pre.flatten.length + A.flatten.length + l2.length
              rw [hprc]
              show (if o.out_line = true then
                  pre.flatten.length + A.flatten.length + l2.length
                else st.ctx.lastnl) ≤ _
              split
              · omega
              · omega
            · show ((prline o encErr buf st (pre.flatten.length + A.flatten.length) (pre.flatten.length + A.flatten.length + l2.length) true)).ctx.totalnl =
                countEol o.eolbyte (buf.take (((prline o encErr buf st (pre.flatten.length + A.flatten.length) (pre.flatten.length + A.flatten.length + l2.length) true)).ctx.lastnl))
              rw [hprc]
              show (if o.out_line = true then
                  countEol o.eolbyte (pre.flatten ++ A.flatten) + 1
                else st.ctx.totalnl) =
                countEol o.eolbyte (buf.take (if o.out_line = true then
                  pre.flatten.length + A.flatten.length + l2.length
                else st.ctx.lastnl))
              by_cases holine : o.out_line = true
              · rw [if_pos holine, if_pos holine, htake2, hcount2]
              · rw [if_neg holine, if_neg holine]
                exact ht
          have hR1left : ({ (prline o encErr buf st (pre.flatten.length + A.flatten.length) (pre.flatten.length + A.flatten.length + l2.length) true) with used := true, ctx := { (prline o encErr buf st (pre.flatten.length + A.flatten.length) (pre.flatten.length + A.flatten.length + l2.length) true).ctx with pending := 0, outleft := (prline o encErr buf st (pre.flatten.length + A.flatten.length) (pre.flatten.length + A.flatten.length + l2.length) true).ctx.outleft - 1 } }).ctx.outleft = st.ctx.outleft - 1 := by
            show ((prline o encErr buf st (pre.flatten.length + A.flatten.length) (pre.flatten.length + A.flatten.length + l2.length) true)).ctx.outleft - 1 = _
            rw [hPRleft]
          obtain ⟨Iout, Ileft, Isi⟩ := ih (pre ++ A ++ [l2]) B buf L ({ (prline o encErr buf st (pre.flatten.length + A.flatten.length) (pre.flatten.length + A.flatten.length + l2.length) true) with used := true, ctx := { (prline o encErr buf st (pre.flatten.length + A.flatten.length) (pre.flatten.length + A.flatten.length + l2.length) true).ctx with pending := 0, outleft := (prline o encErr buf st (pre.flatten.length + A.flatten.length) (pre.flatten.length + A.flatten.length + l2.length) true).ctx.outleft - 1 } }) hbufIH hL
            hwfpre3 hwfB hencB (by rw [e3]; exact hsiR1)
            (by rw [hR1left]; omega) (by omega)
          rw [e3] at Iout Ileft Isi
          rw [e4] at Iout Ileft
          rw [hred, hsplitE]
          have hR1out : ({ (prline o encErr buf st (pre.flatten.length + A.flatten.length) (pre.flatten.length + A.flatten.length + l2.length) true) with used := true, ctx := { (prline o encErr buf st (pre.flatten.length + A.flatten.length) (pre.flatten.length + A.flatten.length + l2.length) true).ctx with pending := 0, outleft := (prline o encErr buf st (pre.flatten.length + A.flatten.length) (pre.flatten.length + A.flatten.length + l2.length) true).ctx.outleft - 1 } }).out = st.out ++ [lineEvent o name
              (pre.length + A.length) (pre.flatten.length + A.flatten.length) l2] := by
            show ((prline o encErr buf st (pre.flatten.length + A.flatten.length) (pre.flatten.length + A.flatten.length + l2.length) true)).out = _
            rw [hprc]
            simp only [lineEvent]
            rw [← hl2d, hcPA]
          refine ⟨?_, ?_, ?_⟩
          · rw [Iout, hR1out]
            simp [List.append_assoc]
          · rw [Ileft, hR1left]
            simp only [List.length_cons]
            push_cast
            omega
          · exact Isi

end MTGrep

namespace MTGrep

theorem chunkBook_enc (o : Opts) (buf : List Byte) (st : St) :
    (chunkBook o buf st).ctx.encoding_error_output =
      st.ctx.encoding_error_output ∧
    (chunkBook o buf st).ctx.done_on_match = st.ctx.done_on_match := by
  rw [chunkBook]
  simp only [nlscan]
  constructor
  · (repeat' split) <;> rfl
  · (repeat' split) <;> rfl

/-- `grep` on a single clean, NUL-free, eol-terminated chunk in plain
mode: the returned line count and the emitted output are exactly the
reference records of the chunk's lines. -/
theorem grepFile_plain (o : Opts) (encErr : List Byte → Bool) (f : List Byte → Bool)
    (name : String) (used0 : Bool) (ls : List (List Byte))
    (hb : o.out_before = -1) (ha : o.out_after = -1)
    (hoq : o.out_quiet = false) (hdm : o.done_on_match = false)
    (hwf : LinesWF o.eolbyte ls)
    (hnn : buf_has_nulls ls.flatten = false)
    (henc : ∀ l ∈ ls, encErr (lineContent l) = false)
    (hm : (ls.length : Int) < o.max_count) :
    (grepFile o encErr f used0 name [ls.flatten]).1 =
      ((expectedGo o f name ls 0 0).length : Int) ∧
    (grepFile o encErr f used0 name [ls.flatten]).2.1 =
      expectedGo o f name ls 0 0 := by
  have hprobe : nulProbe o (-1) ls.flatten = false := by
    rw [nulProbe, hnn]
    simp
  have hwm : chunkEarlyWM o (nulProbe o (-1) ls.flatten) = false := by
    rw [hprobe, chunkEarlyWM]
    simp
  have hcf : chunkFlags o (nulProbe o (-1) ls.flatten) ({ ctx := initCtx o name, used := used0, out := [] } : St) = ({ ctx := initCtx o name, used := used0, out := [] } : St) := by
    rw [hprobe, chunkFlags]
    simp
  have hnfn : chunkNfn (nulProbe o (-1) ls.flatten) 0 (-1) = -1 := by
    rw [hprobe, chunkNfn]
    simp
  have hcr : chunkReset ({ ctx := initCtx o name, used := used0, out := [] } : St) = ({ ctx := initCtx o name, used := used0, out := [] } : St) := rfl
  by_cases hls : ls = []
  · subst hls
    have hgo : grepFileGo o encErr f [([] : List (List Byte)).flatten] ({ ctx := initCtx o name, used := used0, out := [] } : St) 0 (-1) =
        (({ ctx := initCtx o name, used := used0, out := [] } : St), 0, -1, false) := by
      simp only [grepFileGo, hwm, Bool.false_eq_true, if_false, hcf, hnfn, hcr]
      rw [if_pos (show ([] : List (List Byte)).flatten.length = 0 from rfl)]
    rw [grepFile]
    simp only [hgo]
    rw [if_neg (by simp)]
    rw [if_neg (by
      intro h
      rcases h.2 with h2 | h2
      · exact absurd h2 (by simp [initCtx])
      · exact absurd h2.1 (by omega))]
    exact ⟨rfl, rfl⟩
  · have hlpos : 0 < ls.length := List.length_pos.mpr hls
    have hffl := length_le_length_flatten o.eolbyte ls hwf
    have hflpos : 0 < ls.flatten.length := by omega
    have hlf : (ls.flatten.length = 0) = False := eq_false (by omega)
    have hsb : scannedBuffer o (-1) ls.flatten = ls.flatten := by
      rw [scannedBuffer, if_neg (by omega)]
      simp [zap_nuls]
    have hS0l : (({ ctx := initCtx o name, used := used0, out := [] } : St)).ctx.outleft = o.max_count := rfl
    have hsi0 : ScanInv o ls.flatten name 0 ({ ctx := initCtx o name, used := used0, out := [] } : St) := by
      refine ⟨hoq, hdm, rfl, rfl, rfl, rfl, Nat.le_refl 0, ?_⟩
      simp [countEol, initCtx]
    obtain ⟨Gout, Gleft, Gsi⟩ := grepbufLoop_plain o encErr f name hb ha
      (ls.flatten.length - 0 + 1) [] ls ls.flatten (ls.flatten.length) ({ ctx := initCtx o name, used := used0, out := [] } : St)
      (by simp) rfl (fun x hx => absurd hx (List.not_mem_nil x)) hwf henc hsi0
      (by rw [hS0l]; omega) (by omega)
    have hzf : (([] : List (List Byte))).flatten.length = 0 := rfl
    have hzl : ([] : List (List Byte)).length = 0 := rfl
    rw [hzf] at Gout Gleft Gsi
    rw [hzl] at Gout Gleft
    have hle := expectedGo_length_le o f name ls 0 0
    have hne2 : ((grepbufLoop o encErr f ls.flatten ls.flatten.length (ls.flatten.length - 0 + 1) 0 ({ ctx := initCtx o name, used := used0, out := [] } : St))).ctx.outleft ≠ 0 := by
      rw [Gleft, hS0l]
      omega
    have hpend0 : ((grepbufLoop o encErr f ls.flatten ls.flatten.length (ls.flatten.length - 0 + 1) 0 ({ ctx := initCtx o name, used := used0, out := [] } : St))).ctx.pending = 0 := Gsi.2.2.2.1
    have hcs : chunkScan o encErr f ls.flatten ({ ctx := initCtx o name, used := used0, out := [] } : St) =
        ((grepbufLoop o encErr f ls.flatten ls.flatten.length (ls.flatten.length - 0 + 1) 0 ({ ctx := initCtx o name, used := used0, out := [] } : St)), (({ ctx := initCtx o name, used := used0, out := [] } : St)).ctx.outleft - ((grepbufLoop o encErr f ls.flatten ls.flatten.length (ls.flatten.length - 0 + 1) 0 ({ ctx := initCtx o name, used := used0, out := [] } : St))).ctx.outleft) := by
      rw [chunkScan, if_pos (by rw [hS0l]; omega)]
      rfl
    have hcp : chunkPend o encErr f ls.flatten (grepbufLoop o encErr f ls.flatten ls.flatten.length (ls.flatten.length - 0 + 1) 0 ({ ctx := initCtx o name, used := used0, out := [] } : St)) = (grepbufLoop o encErr f ls.flatten ls.flatten.length (ls.flatten.length - 0 + 1) 0 ({ ctx := initCtx o name, used := used0, out := [] } : St)) := by
      rw [chunkPend, if_neg (fun h => h hpend0)]
    have hcd : chunkDone (grepbufLoop o encErr f ls.flatten ls.flatten.length (ls.flatten.length - 0 + 1) 0 ({ ctx := initCtx o name, used := used0, out := [] } : St)) (0 + ((({ ctx := initCtx o name, used := used0, out := [] } : St)).ctx.outleft - ((grepbufLoop o encErr f ls.flatten ls.flatten.length (ls.flatten.length - 0 + 1) 0 ({ ctx := initCtx o name, used := used0, out := [] } : St))).ctx.outleft))
        (-1) = false := by
      rw [chunkDone, Gsi.2.1, decide_eq_false hne2]
      simp
    have hgo : grepFileGo o encErr f [ls.flatten] ({ ctx := initCtx o name, used := used0, out := [] } : St) 0 (-1) =
        (chunkBook o ls.flatten (grepbufLoop o encErr f ls.flatten ls.flatten.length (ls.flatten.length - 0 + 1) 0 ({ ctx := initCtx o name, used := used0, out := [] } : St)),
         0 + ((({ ctx := initCtx o name, used := used0, out := [] } : St)).ctx.outleft - ((grepbufLoop o encErr f ls.flatten ls.flatten.length (ls.flatten.length - 0 + 1) 0 ({ ctx := initCtx o name, used := used0, out := [] } : St))).ctx.outleft), -1, false) := by
      simp only [grepFileGo, hwm, Bool.false_eq_true, if_false, hcf, hnfn, hcr,
        hlf, hsb, hcs, hcp, hcd]
    have hcbe := chunkBook_enc o ls.flatten (grepbufLoop o encErr f ls.flatten ls.flatten.length (ls.flatten.length - 0 + 1) 0 ({ ctx := initCtx o name, used := used0, out := [] } : St))
    have hcbf := chunkBook_frame o ls.flatten (grepbufLoop o encErr f ls.flatten ls.flatten.length (ls.flatten.length - 0 + 1) 0 ({ ctx := initCtx o name, used := used0, out := [] } : St))
    rw [grepFile]
    simp only [hgo]
    rw [if_neg (by simp)]
    rw [if_neg (by
      intro h
      rcases h.2 with h2 | h2
      · rw [hcbe.1, Gsi.2.2.1] at h2
        exact absurd h2 (by simp)
      · exact absurd h2.1 (by omega))]
    have hout2 : ((grepbufLoop o encErr f ls.flatten ls.flatten.length (ls.flatten.length - 0 + 1) 0 ({ ctx := initCtx o name, used := used0, out := [] } : St))).out = expectedGo o f name ls 0 0 := by
      rw [Gout]
      simp
    constructor
    · show 0 + ((({ ctx := initCtx o name, used := used0, out := [] } : St)).ctx.outleft - ((grepbufLoop o encErr f ls.flatten ls.flatten.length (ls.flatten.length - 0 + 1) 0 ({ ctx := initCtx o name, used := used0, out := [] } : St))).ctx.outleft) = _
      rw [Gleft, hS0l]
      omega
    · show (chunkBook o ls.flatten (grepbufLoop o encErr f ls.flatten ls.flatten.length (ls.flatten.length - 0 + 1) 0 ({ ctx := initCtx o name, used := used0, out := [] } : St))).out ++ [] = _
      rw [hcbf.2, hout2, List.append_nil]

end MTGrep

namespace MTGrep

/-- Every reference record is a faithful line record: its line number
counts the eol bytes before its byte offset, and its content is the
slice of the buffer at that offset. -/
theorem expectedGo_props (o : Opts) (f : List Byte → Bool) (name : String) :
    ∀ (A : List (List Byte)) (pre suf buf : List Byte) (j : Nat),
    buf = pre ++ A.flatten ++ suf →
    LinesWF o.eolbyte A →
    j = countEol o.eolbyte pre →
    ∀ ev ∈ expectedGo o f name A j pre.length, ∃ jj off l,
      ev = lineEvent o name jj off l ∧
      countEol o.eolbyte (buf.take off) = jj ∧
      slice buf off (off + l.length) = l ∧ l ∈ A := by
  intro A
  induction A with
  | nil =>
    intro pre suf buf j hbuf hwf hj ev hev
    exact absurd hev (by simp [expectedGo])
  | cons l tl ih =>
    intro pre suf buf j hbuf hwf hj ev hev
    obtain ⟨⟨hl1, hl2, hl3⟩, hwtl⟩ := linesWF_cons o.eolbyte l tl hwf
    have hbuf2 : buf = pre ++ l ++ (tl.flatten ++ suf) := by
      rw [hbuf]
      simp
    rw [expectedGo] at hev
    rcases List.mem_append.mp hev with h1 | h2
    · by_cases hc : f (lineContent l) ≠ o.out_invert
      · rw [if_pos hc, List.mem_singleton] at h1
        refine ⟨j, pre.length, l, h1, ?_, ?_, by simp⟩
        · rw [hbuf2, List.append_assoc pre l (tl.flatten ++ suf), List.take_left]
          exact hj.symm
        · rw [hbuf2]
          exact slice_mid pre l (tl.flatten ++ suf)
      · rw [if_neg hc] at h1
        exact absurd h1 (List.not_mem_nil ev)
    · have hlen : pre.length + l.length = (pre ++ l).length := by simp
      rw [hlen] at h2
      have hbuf3 : buf = (pre ++ l) ++ tl.flatten ++ suf := by
        rw [hbuf]
        simp
      have hj3 : j + 1 = countEol o.eolbyte (pre ++ l) := by
        rw [countEol_append, countEol_line o.eolbyte l hl1 hl2 hl3, hj]
      obtain ⟨jj, off, l', hev2, hcnt, hsl, hmem⟩ :=
        ih (pre ++ l) suf buf (j + 1) hbuf3 hwtl hj3 ev h2
      exact ⟨jj, off, l', hev2, hcnt, hsl, List.mem_cons_of_mem l hmem⟩

end MTGrep

namespace MTGrep

/-- C2: in a plain clean scan, every emitted record that carries a line
number `n` and a byte offset `bo` satisfies `n = (count of eol bytes
strictly before offset bo) + 1`, and its content is the slice of the
original input starting at `bo`; concretely, pattern `x` with flags
`-nb` on input `ab\nxy\nzx\n` produces stdout `2:3:xy\n3:6:zx\n` and
exit status 0. -/
theorem c2_line_numbering (o : Opts) (encErr : List Byte → Bool)
    (f : List Byte → Bool) (name : String) (used0 : Bool) (ls : List (List Byte))
    (hb : o.out_before = -1) (ha : o.out_after = -1)
    (hoq : o.out_quiet = false) (hdm : o.done_on_match = false)
    (hwf : LinesWF o.eolbyte ls) (hnn : buf_has_nulls ls.flatten = false)
    (henc : ∀ l ∈ ls, encErr (lineContent l) = false)
    (hm : (ls.length : Int) < o.max_count) :
    (∀ ev ∈ (grepFile o encErr f used0 name [ls.flatten]).2.1, ∀ ol,
      ev = OutEvent.line ol → ∀ n bo, ol.lineno = some n → ol.byteoff = some bo →
      n = countEol o.eolbyte (ls.flatten.take bo) + 1 ∧
      slice ls.flatten bo (bo + ol.content.length) = ol.content ∧
      ol.content ∈ ls) ∧
    (mainRun optsNB noEncErr matchesX false
      [⟨"(standard input)", [stringBytes "ab\nxy\nzx\n"]⟩]).1 = 0 ∧
    renderOutput (mainRun optsNB noEncErr matchesX false
      [⟨"(standard input)", [stringBytes "ab\nxy\nzx\n"]⟩]).2.1 =
      stringBytes "2:3:xy\n3:6:zx\n" := by
  refine ⟨?_, by decide, by decide⟩
  intro ev hev ol hevol n bo hn hbo
  rw [(grepFile_plain o encErr f name used0 ls hb ha hoq hdm hwf hnn henc hm).2] at hev
  obtain ⟨jj, off, l, hev2, hcnt, hsl, hmem⟩ :=
    expectedGo_props o f name ls [] [] ls.flatten 0 (by simp) hwf rfl ev hev
  have hol : OutEvent.line ol = lineEvent o name jj off l := hevol.symm.trans hev2
  simp only [lineEvent, OutEvent.line.injEq] at hol
  subst hol
  simp only [] at hn hbo
  by_cases holine : o.out_line = true
  · rw [if_pos holine] at hn
    by_cases hobyte : o.out_byte = true
    · rw [if_pos hobyte] at hbo
      injection hn with hn2
      injection hbo with hbo2
      subst hn2
      subst hbo2
      exact ⟨by rw [hcnt], hsl, hmem⟩
    · rw [if_neg hobyte] at hbo
      exact absurd hbo (by simp)
  · rw [if_neg holine] at hn
    exact absurd hn (by simp)

end MTGrep

namespace MTGrep

/-- Witness for C2 at the spec's concrete example. -/
theorem c2_line_numbering_witness :
    (∀ ev ∈ (grepFile optsNB noEncErr matchesX false "f"
        [([[97, 98, 10], [120, 121, 10], [122, 120, 10]] :
          List (List Byte)).flatten]).2.1, ∀ ol,
      ev = OutEvent.line ol → ∀ n bo, ol.lineno = some n → ol.byteoff = some bo →
      n = countEol optsNB.eolbyte
        (([[97, 98, 10], [120, 121, 10], [122, 120, 10]] :
          List (List Byte)).flatten.take bo) + 1 ∧
      slice ([[97, 98, 10], [120, 121, 10], [122, 120, 10]] :
          List (List Byte)).flatten bo (bo + ol.content.length) = ol.content ∧
      ol.content ∈ ([[97, 98, 10], [120, 121, 10], [122, 120, 10]] :
          List (List Byte))) ∧
    (mainRun optsNB noEncErr matchesX false
      [⟨"(standard input)", [stringBytes "ab\nxy\nzx\n"]⟩]).1 = 0 ∧
    renderOutput (mainRun optsNB noEncErr matchesX false
      [⟨"(standard input)", [stringBytes "ab\nxy\nzx\n"]⟩]).2.1 =
      stringBytes "2:3:xy\n3:6:zx\n" :=
  c2_line_numbering optsNB noEncErr matchesX "f" false
    [[97, 98, 10], [120, 121, 10], [122, 120, 10]]
    (by decide) (by decide) (by decide) (by decide)
    (by unfold LinesWF; decide) (by decide) (by decide) (by decide)

end MTGrep

namespace MTGrep

/-- C4 counterexample: on the NUL-containing input `a\0\n` with a
pattern matching lines that contain `a`, the NUL probe flips the scan
into quiet binary mode, so both the plain run and the `-v` run select
nothing — yet `a\0\n` is a line of the input, so the union of the two
selected-line sets does not cover the input's line set. -/
theorem c4_counterexample :
    [97, 0, 10] ∈ toLines 10 [97, 0, 10] ∧
    selContents (grepFile (plainOpts false) noEncErr matchesA false "f"
      [[97, 0, 10]]).2.1 = [] ∧
    selContents (grepFile (plainOpts true) noEncErr matchesA false "f"
      [[97, 0, 10]]).2.1 = [] := by
  decide

/-- C4 (amended): for NUL-free inputs made of eol-terminated lines free
of encoding errors, with the line count below `max_count`, the lines
selected without `-v` and the lines selected with `-v` partition the
input's line set: every input line belongs to exactly one of the two
runs' selected-line lists, and membership in either list implies
membership in the input. -/
theorem c4_inversion_partition (o : Opts) (encErr : List Byte → Bool)
    (f : List Byte → Bool) (name : String) (ls : List (List Byte))
    (hinv : o.out_invert = false)
    (hb : o.out_before = -1) (ha : o.out_after = -1)
    (hoq : o.out_quiet = false) (hdm : o.done_on_match = false)
    (hwf : LinesWF o.eolbyte ls) (hnn : buf_has_nulls ls.flatten = false)
    (henc : ∀ l ∈ ls, encErr (lineContent l) = false)
    (hm : (ls.length : Int) < o.max_count) :
    (∀ l, (l ∈ selContents ((grepFile o encErr f false name [ls.flatten]).2.1) ∨
        l ∈ selContents ((grepFile { o with out_invert := true } encErr f false
          name [ls.flatten]).2.1)) ↔ l ∈ ls) ∧
    (∀ l, ¬ (l ∈ selContents ((grepFile o encErr f false name [ls.flatten]).2.1) ∧
        l ∈ selContents ((grepFile { o with out_invert := true } encErr f false
          name [ls.flatten]).2.1))) := by
  have h1 := (grepFile_plain o encErr f name false ls hb ha hoq hdm hwf hnn henc hm).2
  have h2 := (grepFile_plain { o with out_invert := true } encErr f name false ls
    hb ha hoq hdm hwf hnn henc hm).2
  have hot : ({ o with out_invert := true } : Opts).out_invert = true := rfl
  have hs1 : selContents ((grepFile o encErr f false name [ls.flatten]).2.1) =
      ls.filter (fun l => decide (f (lineContent l) ≠ false)) := by
    rw [h1, selContents_expectedGo, hinv]
  have hs2 : selContents ((grepFile { o with out_invert := true } encErr f false
      name [ls.flatten]).2.1) =
      ls.filter (fun l => decide (f (lineContent l) ≠ true)) := by
    rw [h2, selContents_expectedGo]
  constructor
  · intro l
    rw [hs1, hs2]
    simp only [List.mem_filter, decide_eq_true_eq]
    constructor
    · rintro (⟨hm1, _⟩ | ⟨hm1, _⟩) <;> exact hm1
    · intro hmem
      by_cases hf : f (lineContent l) = true
      · left
        exact ⟨hmem, by simp [hf]⟩
      · right
        exact ⟨hmem, by simp [Bool.of_not_eq_true hf]⟩
  · intro l
    rw [hs1, hs2]
    simp only [List.mem_filter, decide_eq_true_eq]
    rintro ⟨⟨_, hp1⟩, ⟨_, hp2⟩⟩
    cases hfv : f (lineContent l) with
    | false => exact hp1 hfv
    | true => exact hp2 hfv

/-- Witness for C4 (amended) on a concrete two-line input where one
line matches and the other does not. -/
theorem c4_inversion_partition_witness :
    (∀ l, (l ∈ selContents ((grepFile (plainOpts false) noEncErr matchesA false "f"
        [([[97, 10], [98, 10]] : List (List Byte)).flatten]).2.1) ∨
        l ∈ selContents ((grepFile { plainOpts false with out_invert := true }
          noEncErr matchesA false "f"
          [([[97, 10], [98, 10]] : List (List Byte)).flatten]).2.1)) ↔
      l ∈ ([[97, 10], [98, 10]] : List (List Byte))) ∧
    (∀ l, ¬ (l ∈ selContents ((grepFile (plainOpts false) noEncErr matchesA false "f"
        [([[97, 10], [98, 10]] : List (List Byte)).flatten]).2.1) ∧
        l ∈ selContents ((grepFile { plainOpts false with out_invert := true }
          noEncErr matchesA false "f"
          [([[97, 10], [98, 10]] : List (List Byte)).flatten]).2.1))) :=
  c4_inversion_partition (plainOpts false) noEncErr matchesA "f"
    [[97, 10], [98, 10]]
    (by decide) (by decide) (by decide) (by decide) (by decide)
    (by unfold LinesWF; decide) (by decide) (by decide) (by decide)

end MTGrep

namespace MTGrep

/-- `execute` finds the first matching line: offset = byte length of the
non-matching block, length = the matching line's length. -/
theorem execLinesGo_first (f : List Byte → Bool) (A B : List (List Byte))
    (l2 : List Byte)
    (hA : ∀ x ∈ A, f (lineContent x) = false) (hl2 : f (lineContent l2) = true) :
    execLinesGo f (A ++ l2 :: B) = some (A.flatten.length, l2.length) := by
  induction A with
  | nil => simp [execLinesGo, hl2]
  | cons a tl ih =>
    have ha := hA a (by simp)
    rw [List.cons_append, execLinesGo, if_neg (by simp [ha])]
    rw [ih (fun x hx => hA x (by simp [hx]))]
    show some (tl.flatten.length + a.length, l2.length) =
      some ((a :: tl).flatten.length, l2.length)
    have : tl.flatten.length + a.length = ((a :: tl).flatten).length := by
      simp only [List.flatten_cons, List.length_append]
      omega
    rw [this]

end MTGrep

namespace MTGrep

/-- When the first matching line of a NUL-free file carries an encoding
error (under `binary_files ≠ text`), the scan suppresses it, flips into
quiet mode and stops after that line; the file's whole output is the
binary summary, with line count 1. -/
theorem grepFile_error_first (o : Opts) (encErr : List Byte → Bool)
    (f : List Byte → Bool) (name : String) (A B : List (List Byte)) (l2 : List Byte)
    (hb : o.out_before = -1) (ha : o.out_after = -1)
    (hoq : o.out_quiet = false) (hinv : o.out_invert = false)
    (hbin : o.binary_files ≠ BinaryFiles.text) (hmz : o.max_count ≠ 0)
    (hwf : LinesWF o.eolbyte (A ++ l2 :: B))
    (hnn : buf_has_nulls (A ++ l2 :: B).flatten = false)
    (hA : ∀ x ∈ A, f (lineContent x) = false)
    (hl2 : f (lineContent l2) = true)
    (herr : encErr (lineContent l2) = true) :
    grepFile o encErr f false name [(A ++ l2 :: B).flatten] =
      (1, [OutEvent.binarySummary name], true) := by
  obtain ⟨hwfA, hwfl2B⟩ := linesWF_append_elim o.eolbyte A (l2 :: B) hwf
  obtain ⟨⟨hl2ne, hl2last, hl2nin⟩, hwfB⟩ := linesWF_cons o.eolbyte l2 B hwfl2B
  have hl2d := line_decomp o.eolbyte l2 hl2last
  have hll2 : l2.length = l2.dropLast.length + 1 := by
    conv_lhs => rw [hl2d]
    simp
  have hl2pos : 0 < l2.length := by omega
  have flpost : (A ++ l2 :: B).flatten.length =
      A.flatten.length + l2.length + B.flatten.length := by
    simp only [List.flatten_append, List.flatten_cons, List.length_append]
    omega
  have hflpos : 0 < (A ++ l2 :: B).flatten.length := by omega
  have hlf : ((A ++ l2 :: B).flatten.length = 0) = False := eq_false (by omega)
  have hprobe : nulProbe o (-1) (A ++ l2 :: B).flatten = false := by
    rw [nulProbe, hnn]
    simp
  have hwm : chunkEarlyWM o (nulProbe o (-1) (A ++ l2 :: B).flatten) = false := by
    rw [hprobe, chunkEarlyWM]
    simp
  have hcf : chunkFlags o (nulProbe o (-1) (A ++ l2 :: B).flatten) ({ ctx := initCtx o name, used := false, out := [] } : St) = ({ ctx := initCtx o name, used := false, out := [] } : St) := by
    rw [hprobe, chunkFlags]
    simp
  have hnfn : chunkNfn (nulProbe o (-1) (A ++ l2 :: B).flatten) 0 (-1) = -1 := by
    rw [hprobe, chunkNfn]
    simp
  have hcr : chunkReset ({ ctx := initCtx o name, used := false, out := [] } : St) = ({ ctx := initCtx o name, used := false, out := [] } : St) := rfl
  have hsb : scannedBuffer o (-1) (A ++ l2 :: B).flatten = (A ++ l2 :: B).flatten := by
    rw [scannedBuffer, if_neg (by omega)]
    simp [zap_nuls]
  have hexe : executeM f o.eolbyte (A ++ l2 :: B).flatten 0
      (A ++ l2 :: B).flatten.length = execLinesGo f (A ++ l2 :: B) := by
    rw [executeM, slice_zero, List.take_length, execLines,
      toLines_flatten o.eolbyte (A ++ l2 :: B) hwf]
  have hex2 : executeM f o.eolbyte (A ++ l2 :: B).flatten 0
      (A ++ l2 :: B).flatten.length = some (A.flatten.length, l2.length) :=
    hexe.trans (execLinesGo_first f A B l2 hA hl2)
  have hbufd : (A ++ l2 :: B).flatten =
      A.flatten ++ l2.dropLast ++ o.eolbyte :: B.flatten := by
    conv_lhs => rw [hl2d]
    simp
  have hsl : slice (A ++ l2 :: B).flatten A.flatten.length
      (A.flatten.length + l2.dropLast.length) = l2.dropLast := by
    rw [hbufd]
    exact slice_mid A.flatten l2.dropLast (o.eolbyte :: B.flatten)
  have e6 : A.flatten.length + (A.flatten.length + l2.length - A.flatten.length - 1) =
      A.flatten.length + l2.dropLast.length := by omega
  have herr2 : encErr (slice (A ++ l2 :: B).flatten A.flatten.length
      (A.flatten.length + (A.flatten.length + l2.length - A.flatten.length - 1))) =
      true := by
    rw [e6, hsl]
    exact herr
  have hple := prline_error o encErr (A ++ l2 :: B).flatten ({ ctx := initCtx o name, used := false, out := [] } : St)
    A.flatten.length (A.flatten.length + l2.length) true hbin herr2
  have hdone : ({ (prline o encErr (A ++ l2 :: B).flatten ({ ctx := initCtx o name, used := false, out := [] } : St) A.flatten.length (A.flatten.length + l2.length) true) with used := true, ctx := { (prline o encErr (A ++ l2 :: B).flatten ({ ctx := initCtx o name, used := false, out := [] } : St) A.flatten.length (A.flatten.length + l2.length) true).ctx with pending := 0, outleft := (prline o encErr (A ++ l2 :: B).flatten ({ ctx := initCtx o name, used := false, out := [] } : St) A.flatten.length (A.flatten.length + l2.length) true).ctx.outleft - 1 } }).ctx.done_on_match = true := by
    show ((prline o encErr (A ++ l2 :: B).flatten ({ ctx := initCtx o name, used := false, out := [] } : St) A.flatten.length (A.flatten.length + l2.length) true)).ctx.done_on_match = true
    rw [hple]
  have hS0l : (({ ctx := initCtx o name, used := false, out := [] } : St)).ctx.outleft = o.max_count := rfl
  have hRleft : ({ (prline o encErr (A ++ l2 :: B).flatten ({ ctx := initCtx o name, used := false, out := [] } : St) A.flatten.length (A.flatten.length + l2.length) true) with used := true, ctx := { (prline o encErr (A ++ l2 :: B).flatten ({ ctx := initCtx o name, used := false, out := [] } : St) A.flatten.length (A.flatten.length + l2.length) true).ctx with pending := 0, outleft := (prline o encErr (A ++ l2 :: B).flatten ({ ctx := initCtx o name, used := false, out := [] } : St) A.flatten.length (A.flatten.length + l2.length) true).ctx.outleft - 1 } }).ctx.outleft = o.max_count - 1 := by
    show ((prline o encErr (A ++ l2 :: B).flatten ({ ctx := initCtx o name, used := false, out := [] } : St) A.flatten.length (A.flatten.length + l2.length) true)).ctx.outleft - 1 = o.max_count - 1
    rw [hple]
    rfl
  have hRout : ({ (prline o encErr (A ++ l2 :: B).flatten ({ ctx := initCtx o name, used := false, out := [] } : St) A.flatten.length (A.flatten.length + l2.length) true) with used := true, ctx := { (prline o encErr (A ++ l2 :: B).flatten ({ ctx := initCtx o name, used := false, out := [] } : St) A.flatten.length (A.flatten.length + l2.length) true).ctx with pending := 0, outleft := (prline o encErr (A ++ l2 :: B).flatten ({ ctx := initCtx o name, used := false, out := [] } : St) A.flatten.length (A.flatten.length + l2.length) true).ctx.outleft - 1 } }).out = [] := by
    show ((prline o encErr (A ++ l2 :: B).flatten ({ ctx := initCtx o name, used := false, out := [] } : St) A.flatten.length (A.flatten.length + l2.length) true)).out = []
    rw [hple]
  have hRenc : ({ (prline o encErr (A ++ l2 :: B).flatten ({ ctx := initCtx o name, used := false, out := [] } : St) A.flatten.length (A.flatten.length + l2.length) true) with used := true, ctx := { (prline o encErr (A ++ l2 :: B).flatten ({ ctx := initCtx o name, used := false, out := [] } : St) A.flatten.length (A.flatten.length + l2.length) true).ctx with pending := 0, outleft := (prline o encErr (A ++ l2 :: B).flatten ({ ctx := initCtx o name, used := false, out := [] } : St) A.flatten.length (A.flatten.length + l2.length) true).ctx.outleft - 1 } }).ctx.encoding_error_output = true := by
    show ((prline o encErr (A ++ l2 :: B).flatten ({ ctx := initCtx o name, used := false, out := [] } : St) A.flatten.length (A.flatten.length + l2.length) true)).ctx.encoding_error_output = true
    rw [hple]
  have hredloop : (grepbufLoop o encErr f (A ++ l2 :: B).flatten (A ++ l2 :: B).flatten.length ((A ++ l2 :: B).flatten.length - 0 + 1) 0 ({ ctx := initCtx o name, used := false, out := [] } : St)) = { (prline o encErr (A ++ l2 :: B).flatten ({ ctx := initCtx o name, used := false, out := [] } : St) A.flatten.length (A.flatten.length + l2.length) true) with used := true, ctx := { (prline o encErr (A ++ l2 :: B).flatten ({ ctx := initCtx o name, used := false, out := [] } : St) A.flatten.length (A.flatten.length + l2.length) true).ctx with pending := 0, outleft := (prline o encErr (A ++ l2 :: B).flatten ({ ctx := initCtx o name, used := false, out := [] } : St) A.flatten.length (A.flatten.length + l2.length) true).ctx.outleft - 1 } } := by
    simp only [grepbufLoop]
    rw [if_pos (show 0 < (A ++ l2 :: B).flatten.length by omega)]
    simp only [hex2, Nat.zero_add]
    rw [if_neg (fun h => absurd h.2 (by omega))]
    rw [if_pos (Or.inl (by simp [hinv]))]
    simp only [hinv, Bool.false_eq_true, if_false]
    rw [prtext_plain_nv o encErr f (A ++ l2 :: B).flatten ({ ctx := initCtx o name, used := false, out := [] } : St)
      A.flatten.length (A.flatten.length + l2.length) hinv hb ha hoq rfl]
    rw [if_pos (Or.inr hdone)]
  have hcs : chunkScan o encErr f (A ++ l2 :: B).flatten ({ ctx := initCtx o name, used := false, out := [] } : St) =
      ({ (prline o encErr (A ++ l2 :: B).flatten ({ ctx := initCtx o name, used := false, out := [] } : St) A.flatten.length (A.flatten.length + l2.length) true) with used := true, ctx := { (prline o encErr (A ++ l2 :: B).flatten ({ ctx := initCtx o name, used := false, out := [] } : St) A.flatten.length (A.flatten.length + l2.length) true).ctx with pending := 0, outleft := (prline o encErr (A ++ l2 :: B).flatten ({ ctx := initCtx o name, used := false, out := [] } : St) A.flatten.length (A.flatten.length + l2.length) true).ctx.outleft - 1 } }, (({ ctx := initCtx o name, used := false, out := [] } : St)).ctx.outleft - ({ (prline o encErr (A ++ l2 :: B).flatten ({ ctx := initCtx o name, used := false, out := [] } : St) A.flatten.length (A.flatten.length + l2.length) true) with used := true, ctx := { (prline o encErr (A ++ l2 :: B).flatten ({ ctx := initCtx o name, used := false, out := [] } : St) A.flatten.length (A.flatten.length + l2.length) true).ctx with pending := 0, outleft := (prline o encErr (A ++ l2 :: B).flatten ({ ctx := initCtx o name, used := false, out := [] } : St) A.flatten.length (A.flatten.length + l2.length) true).ctx.outleft - 1 } }).ctx.outleft) := by
    rw [chunkScan, if_pos (show (({ ctx := initCtx o name, used := false, out := [] } : St)).ctx.outleft ≠ 0 from hmz)]
    show ((grepbufLoop o encErr f (A ++ l2 :: B).flatten (A ++ l2 :: B).flatten.length ((A ++ l2 :: B).flatten.length - 0 + 1) 0 ({ ctx := initCtx o name, used := false, out := [] } : St)), (({ ctx := initCtx o name, used := false, out := [] } : St)).ctx.outleft - ((grepbufLoop o encErr f (A ++ l2 :: B).flatten (A ++ l2 :: B).flatten.length ((A ++ l2 :: B).flatten.length - 0 + 1) 0 ({ ctx := initCtx o name, used := false, out := [] } : St))).ctx.outleft) = _
    rw [hredloop]
  have hcp : chunkPend o encErr f (A ++ l2 :: B).flatten { (prline o encErr (A ++ l2 :: B).flatten ({ ctx := initCtx o name, used := false, out := [] } : St) A.flatten.length (A.flatten.length + l2.length) true) with used := true, ctx := { (prline o encErr (A ++ l2 :: B).flatten ({ ctx := initCtx o name, used := false, out := [] } : St) A.flatten.length (A.flatten.length + l2.length) true).ctx with pending := 0, outleft := (prline o encErr (A ++ l2 :: B).flatten ({ ctx := initCtx o name, used := false, out := [] } : St) A.flatten.length (A.flatten.length + l2.length) true).ctx.outleft - 1 } } = { (prline o encErr (A ++ l2 :: B).flatten ({ ctx := initCtx o name, used := false, out := [] } : St) A.flatten.length (A.flatten.length + l2.length) true) with used := true, ctx := { (prline o encErr (A ++ l2 :: B).flatten ({ ctx := initCtx o name, used := false, out := [] } : St) A.flatten.length (A.flatten.length + l2.length) true).ctx with pending := 0, outleft := (prline o encErr (A ++ l2 :: B).flatten ({ ctx := initCtx o name, used := false, out := [] } : St) A.flatten.length (A.flatten.length + l2.length) true).ctx.outleft - 1 } } := by
    rw [chunkPend, if_neg (fun h => h rfl)]
  have hnl : 0 + ((({ ctx := initCtx o name, used := false, out := [] } : St)).ctx.outleft - ({ (prline o encErr (A ++ l2 :: B).flatten ({ ctx := initCtx o name, used := false, out := [] } : St) A.flatten.length (A.flatten.length + l2.length) true) with used := true, ctx := { (prline o encErr (A ++ l2 :: B).flatten ({ ctx := initCtx o name, used := false, out := [] } : St) A.flatten.length (A.flatten.length + l2.length) true).ctx with pending := 0, outleft := (prline o encErr (A ++ l2 :: B).flatten ({ ctx := initCtx o name, used := false, out := [] } : St) A.flatten.length (A.flatten.length + l2.length) true).ctx.outleft - 1 } }).ctx.outleft) = 1 := by
    rw [hRleft, hS0l]
    omega
  have hcd : chunkDone { (prline o encErr (A ++ l2 :: B).flatten ({ ctx := initCtx o name, used := false, out := [] } : St) A.flatten.length (A.flatten.length + l2.length) true) with used := true, ctx := { (prline o encErr (A ++ l2 :: B).flatten ({ ctx := initCtx o name, used := false, out := [] } : St) A.flatten.length (A.flatten.length + l2.length) true).ctx with pending := 0, outleft := (prline o encErr (A ++ l2 :: B).flatten ({ ctx := initCtx o name, used := false, out := [] } : St) A.flatten.length (A.flatten.length + l2.length) true).ctx.outleft - 1 } } (0 + ((({ ctx := initCtx o name, used := false, out := [] } : St)).ctx.outleft - ({ (prline o encErr (A ++ l2 :: B).flatten ({ ctx := initCtx o name, used := false, out := [] } : St) A.flatten.length (A.flatten.length + l2.length) true) with used := true, ctx := { (prline o encErr (A ++ l2 :: B).flatten ({ ctx := initCtx o name, used := false, out := [] } : St) A.flatten.length (A.flatten.length + l2.length) true).ctx with pending := 0, outleft := (prline o encErr (A ++ l2 :: B).flatten ({ ctx := initCtx o name, used := false, out := [] } : St) A.flatten.length (A.flatten.length + l2.length) true).ctx.outleft - 1 } }).ctx.outleft))
      (-1) = true := by
    rw [chunkDone, hdone, hnl]
    have hmx : max 0 (-1 : Int) < 1 := by decide
    simp [hmx]
  have hgo : grepFileGo o encErr f [(A ++ l2 :: B).flatten] ({ ctx := initCtx o name, used := false, out := [] } : St) 0 (-1) =
      ({ (prline o encErr (A ++ l2 :: B).flatten ({ ctx := initCtx o name, used := false, out := [] } : St) A.flatten.length (A.flatten.length + l2.length) true) with used := true, ctx := { (prline o encErr (A ++ l2 :: B).flatten ({ ctx := initCtx o name, used := false, out := [] } : St) A.flatten.length (A.flatten.length + l2.length) true).ctx with pending := 0, outleft := (prline o encErr (A ++ l2 :: B).flatten ({ ctx := initCtx o name, used := false, out := [] } : St) A.flatten.length (A.flatten.length + l2.length) true).ctx.outleft - 1 } }, 0 + ((({ ctx := initCtx o name, used := false, out := [] } : St)).ctx.outleft - ({ (prline o encErr (A ++ l2 :: B).flatten ({ ctx := initCtx o name, used := false, out := [] } : St) A.flatten.length (A.flatten.length + l2.length) true) with used := true, ctx := { (prline o encErr (A ++ l2 :: B).flatten ({ ctx := initCtx o name, used := false, out := [] } : St) A.flatten.length (A.flatten.length + l2.length) true).ctx with pending := 0, outleft := (prline o encErr (A ++ l2 :: B).flatten ({ ctx := initCtx o name, used := false, out := [] } : St) A.flatten.length (A.flatten.length + l2.length) true).ctx.outleft - 1 } }).ctx.outleft), -1, false) := by
    simp only [grepFileGo, hwm, Bool.false_eq_true, if_false, hcf, hnfn, hcr,
      hlf, hsb, hcs, hcp, hcd, eq_self_iff_true, if_true]
  rw [grepFile]
  simp only [hgo]
  rw [if_neg (by simp)]
  split
  · rw [hnl, hRout]
    rfl
  · rename_i hcond
    exact absurd ⟨by simp [hoq], Or.inl hRenc⟩ hcond

end MTGrep

namespace MTGrep

/-- C6 counterexample: a clean matching line printed before the
encoding-error line stays in the output — the file's output is the
clean line followed by the binary summary, not the summary alone, so
"the only output for that file is the summary line" fails. -/
theorem c6_counterexample :
    (grepFile (plainOpts false) encErrFF matchesH false "f"
      [[104, 10, 104, 255, 10]]).2.1 =
      [OutEvent.line
        { fname := none, lineno := none, byteoff := none,
          sel := true, content := [104, 10] },
       OutEvent.binarySummary "f"] ∧
    (grepFile (plainOpts false) encErrFF matchesH false "f"
      [[104, 10, 104, 255, 10]]).2.1 ≠ [OutEvent.binarySummary "f"] := by
  decide

/-- C6 (amended): under `binary_files ≠ text`, a line about to be
printed whose content carries an encoding error is suppressed by
`print_line_head` (no head, nothing printed), which raises
`encoding_error_output` and flips `done_on_match` and `out_quiet`; when
the first matching line of a NUL-free file carries the error, the
file's entire output is the binary summary "Binary file name matches".
Output printed before the flip remains, so "the only output" claim
holds only for a first-match error. -/
theorem c6_encoding_error :
    (∀ (o : Opts) (encErr : List Byte → Bool) (buf : List Byte) (ctx : Ctx)
        (b len lim : Nat), o.binary_files ≠ BinaryFiles.text →
      encErr (slice buf b (b + len)) = true →
      print_line_head o encErr buf ctx b len lim =
        ({ ctx with
            encoding_error_output := true, done_on_match := true,
            out_quiet := true }, none)) ∧
    (∀ (o : Opts) (encErr : List Byte → Bool) (f : List Byte → Bool)
        (name : String) (A B : List (List Byte)) (l2 : List Byte),
      o.out_before = -1 → o.out_after = -1 → o.out_quiet = false →
      o.out_invert = false → o.binary_files ≠ BinaryFiles.text →
      o.max_count ≠ 0 → LinesWF o.eolbyte (A ++ l2 :: B) →
      buf_has_nulls (A ++ l2 :: B).flatten = false →
      (∀ x ∈ A, f (lineContent x) = false) → f (lineContent l2) = true →
      encErr (lineContent l2) = true →
      grepFile o encErr f false name [(A ++ l2 :: B).flatten] =
        (1, [OutEvent.binarySummary name], true)) :=
  ⟨fun o encErr buf ctx b len lim hbin herr =>
    print_line_head_err o encErr buf ctx b len lim hbin herr,
   fun o encErr f name A B l2 hb ha hoq hinv hbin hmz hwf hnn hA hl2 herr =>
    grepFile_error_first o encErr f name A B l2 hb ha hoq hinv hbin hmz hwf hnn
      hA hl2 herr⟩

/-- Witness for C6 (amended): a concrete suppressed head and a concrete
one-line file whose only output is the binary summary. -/
theorem c6_encoding_error_witness :
    print_line_head (plainOpts false) encErrFF [255, 10]
        (initCtx (plainOpts false) "f") 0 1 2 =
      ({ initCtx (plainOpts false) "f" with
          encoding_error_output := true, done_on_match := true,
          out_quiet := true }, none) ∧
    grepFile (plainOpts false) encErrFF matchesH false "f" [[104, 255, 10]] =
      (1, [OutEvent.binarySummary "f"], true) :=
  ⟨c6_encoding_error.1 (plainOpts false) encErrFF [255, 10]
      (initCtx (plainOpts false) "f") 0 1 2 (by decide) (by decide),
   c6_encoding_error.2 (plainOpts false) encErrFF matchesH "f" [] [] [104, 255, 10]
      (by decide) (by decide) (by decide) (by decide) (by decide) (by decide)
      (by unfold LinesWF; decide) (by decide) (by decide) (by decide) (by decide)⟩

end MTGrep
